import Mathlib

/-!
Verification of the `ms2` polygon builder and boundary discretization engine
(`src/math/ms2/polygon.go`, with vector and matrix helpers from `vec.go`,
`mat2.go` and the orientation helper `CopyOrientation`).

Shallow embedding conventions:
* `float32` is modelled by `ℝ`; `int` and `int32` by `ℤ`.
* Go division by zero yields Inf or NaN; in `ℝ` division by zero yields 0.
  Every theorem below that depends on a quotient carries hypotheses keeping
  the divisor nonzero, matching the guarded paths of the Go code.
* `math.Copysign` is modelled by `copysign` below; `ℝ` has no negative zero,
  so `copysign x 0 = |x|` (Go distinguishes `0.0` from `-0.0`).
* The fallible kernels return pairs with an `Option` error or `Except`,
  mirroring the Go multiple-value returns.
-/

namespace ms2

attribute [instance] Classical.propDecidable

noncomputable section

/-- Model of `math.Copysign(f, s)`: magnitude of `f` with the sign of `s`. -/
def copysign (f s : ℝ) : ℝ := if s < 0 then -|f| else |f|

/-- Model of `ms2.Vec` (vec.go): a 2D vector with `X`, `Y` components. -/
@[ext]
structure Vec where
  X : ℝ
  Y : ℝ

/-- Model of `ms2.Mat2` (mat2.go): row-major 2x2 matrix. -/
structure Mat2 where
  x00 : ℝ
  x01 : ℝ
  x10 : ℝ
  x11 : ℝ

/-- `func Add(p, q Vec) Vec` (vec.go). -/
def Add (p q : Vec) : Vec := ⟨p.X + q.X, p.Y + q.Y⟩

/-- `func Sub(p, q Vec) Vec` (vec.go). -/
def Sub (p q : Vec) : Vec := ⟨p.X - q.X, p.Y - q.Y⟩

/-- `func Scale(f float32, p Vec) Vec` (vec.go). -/
def Scale (f : ℝ) (p : Vec) : Vec := ⟨f * p.X, f * p.Y⟩

/-- `func Dot(p, q Vec) float32` (vec.go). -/
def Dot (p q : Vec) : ℝ := p.X * q.X + p.Y * q.Y

/-- `func Norm(p Vec) float32` (vec.go): `math.Hypot(p.X, p.Y)`. -/
def Norm (p : Vec) : ℝ := Real.sqrt (p.X ^ 2 + p.Y ^ 2)

/-- `func Unit(p Vec) Vec` (vec.go). On the zero vector Go returns a NaN
vector; `ℝ` has no NaN, so the zero branch returns the zero vector. All uses
in the polygon kernels are guarded so the zero branch is never taken. -/
def Unit (p : Vec) : Vec :=
  if p.X = 0 ∧ p.Y = 0 then ⟨0, 0⟩ else Scale (1 / Norm p) p

/-- `func EqualElem(a, b Vec, tol float32) bool` (vec.go). -/
def EqualElem (a b : Vec) (tol : ℝ) : Prop :=
  |a.X - b.X| ≤ tol ∧ |a.Y - b.Y| ≤ tol

/-- `func MulMatVec(m Mat2, v Vec) Vec` (mat2.go). -/
def MulMatVec (m : Mat2) (v : Vec) : Vec :=
  ⟨v.X * m.x00 + v.Y * m.x01, v.X * m.x10 + v.Y * m.x11⟩

/-- `func RotationMat2(a float32) Mat2` (mat2.go). -/
def RotationMat2 (a : ℝ) : Mat2 :=
  ⟨Real.cos a, -Real.sin a, Real.sin a, Real.cos a⟩

/-- `func CopyOrientation(f float32, p1, p2, p3 Vec) float32` (orientation
helper): applies the orientation sign of the point triple to `f`. -/
def CopyOrientation (f : ℝ) (p1 p2 p3 : Vec) : ℝ :=
  let slope1 := (p2.Y - p1.Y) * (p3.X - p2.X)
  let slope2 := (p3.Y - p2.Y) * (p2.X - p1.X)
  if slope1 = slope2 then 0 else copysign f (slope2 - slope1)

/-- `const arcTol = 5e-1` (polygon.go). -/
def arcTol : ℝ := 5e-1

/-- `const sqrtHalf = math.Sqrt2 / 2` (polygon.go). -/
def sqrtHalf : ℝ := Real.sqrt 2 / 2

/-- Geometry errors of polygon.go (`errLargeSmoothRadius`,
`errSmallArcRadius`, `errBadSmooth`, `errCPEqualToPrev`). -/
inductive GeomErr where
  | largeSmoothRadius
  | smallArcRadius
  | badSmooth
  | cpEqualToPrev
deriving DecidableEq

/-- Error returned by `AppendVecs`: either the too-few-vertices error or a
`cpAtIdxErr` wrapping a geometry error with the offending control point
index (polygon.go, `cpAtIdxErr`). -/
inductive AVError where
  | tooFewVertices
  | cp (idx : ℕ) (msg : GeomErr)
deriving DecidableEq

/-- Model of `ms2.PolygonControlPoint` (polygon.go): absolute position `v`,
smoothing radius, facet count (negative facets indicate arcing). -/
structure PolygonControlPoint where
  v : Vec
  radius : ℝ
  facets : ℤ

/-- `func (v *PolygonControlPoint) Smooth(radius float32, facets int)`
(polygon.go), as a pure update of the control point. -/
def Smooth (cp : PolygonControlPoint) (radius : ℝ) (facets : ℤ) :
    PolygonControlPoint :=
  if radius > 0 ∧ facets > 0 then { cp with radius := radius, facets := facets }
  else cp

/-- `func (v *PolygonControlPoint) Arc(radius float32, facets int)`
(polygon.go), as a pure update of the control point. -/
def Arc (cp : PolygonControlPoint) (radius : ℝ) (facets : ℤ) :
    PolygonControlPoint :=
  if radius ≠ 0 ∧ facets > 0 then { cp with radius := radius, facets := -facets }
  else cp

/-- `func (v *PolygonControlPoint) Chamfer(size float32)` (polygon.go). -/
def Chamfer (cp : PolygonControlPoint) (size : ℝ) : PolygonControlPoint :=
  Smooth cp (size * sqrtHalf) 1

/-- `func (v *PolygonControlPoint) isSmoothed() bool` (polygon.go). -/
def isSmoothed (cp : PolygonControlPoint) : Prop :=
  cp.facets > 0 ∧ cp.radius > 0

/-- `func (v *PolygonControlPoint) isArc() bool` (polygon.go). -/
def isArc (cp : PolygonControlPoint) : Prop :=
  cp.facets < 0 ∧ cp.radius ≠ 0

/-- The loop body of `appendArcWithCenter` (polygon.go lines 181-184):
starting from the relative vector `rv`, rotate `k` times by `T`, appending
`center + rotated` after each rotation. -/
def arcPoints (T : Mat2) (center rv : Vec) : ℕ → List Vec
  | 0 => []
  | k + 1 =>
    let rv2 := MulMatVec T rv
    Add center rv2 :: arcPoints T center rv2 k

/-- `func appendArcWithCenter(dst []Vec, start, center Vec, arcAngle float32,
facets int32) []Vec` (polygon.go): appends `facets-1` interior arc points. -/
def appendArcWithCenter (dst : List Vec) (start center : Vec)
    (arcAngle : ℝ) (facets : ℤ) : List Vec :=
  let dtheta := arcAngle / (facets : ℝ)
  let T := RotationMat2 dtheta
  dst ++ arcPoints T center (Sub start center) (facets - 1).toNat

/-- Lines 201-206 of polygon.go: the half chord angle
`asin(chordLen/(2*rabs))`, nudged by `copysign(1e-6, -diffTo90)` when within
`1e-6` of `π/2`. -/
def halfAngleAdjusted (chordLen rabs : ℝ) : ℝ :=
  let chordThetaDiv2 := Real.arcsin (chordLen / (2 * rabs))
  let diffTo90 := chordThetaDiv2 - Real.pi / 2
  if |diffTo90| < 1e-6 then chordThetaDiv2 + copysign 1e-6 (-diffTo90)
  else chordThetaDiv2

/-- `func arcCenterFrom2points(p1, p2 Vec, r float32) (Vec, float32, error)`
(polygon.go): arc center and signed sweep angle from two chord points and a
signed radius. -/
def arcCenterFrom2points (p1 p2 : Vec) (r : ℝ) :
    Except GeomErr (Vec × ℝ) :=
  let rabs := |r|
  let V12 := Sub p2 p1
  let chordCenter := Add p1 (Scale 0.5 V12)
  let chordLen := Norm V12
  let maxChordLen := 2 * rabs
  if chordLen - maxChordLen > arcTol then Except.error GeomErr.smallArcRadius
  else
    let chordThetaDiv2 := halfAngleAdjusted chordLen rabs
    let perp : Vec :=
      ⟨copysign V12.Y (-V12.Y * r), copysign V12.X (V12.X * r)⟩
    let x := 0.5 * chordLen / Real.tan chordThetaDiv2
    let perp2 := Scale (x / chordLen) perp
    Except.ok (Add chordCenter perp2, copysign (2 * chordThetaDiv2) r)

/-- `func appendArc2points(dst []Vec, p1, p2 Vec, r float32, facets int32)
([]Vec, error)` (polygon.go). -/
def appendArc2points (dst : List Vec) (p1 p2 : Vec) (r : ℝ) (facets : ℤ) :
    List Vec × Option GeomErr :=
  if facets ≤ 1 then (dst, none)
  else
    match arcCenterFrom2points p1 p2 r with
    | Except.error e => (dst, some e)
    | Except.ok (arcCenter, arcAngle) =>
      (appendArcWithCenter dst p1 arcCenter arcAngle facets, none)

/-- The Go local `V10n` of `appendSmoothedCorner` (polygon.go line 248):
the edge vector from corner `b` toward neighbor `a`, normalized. The local
`V12n` is the same formula with the other neighbor: `cornerUnitTo p2 p1`. -/
def cornerUnitTo (a b : Vec) : Vec :=
  Scale (1 / Norm (Sub a b)) (Sub a b)

/-- The Go local `theta` of `appendSmoothedCorner` (polygon.go line 252):
the opening angle between the two normalized edge vectors at the corner. -/
def cornerTheta (p0 p1 p2 : Vec) : ℝ :=
  Real.arccos (Dot (cornerUnitTo p0 p1) (cornerUnitTo p2 p1))

/-- The Go local `d` of `appendSmoothedCorner` (polygon.go line 260):
distance from the corner `p1` to the two tangent points on the arc,
`r / (sint / cost)` with `sint, cost = math.Sincos(0.5*theta)`. -/
def cornerD (p0 p1 p2 : Vec) (r : ℝ) : ℝ :=
  r / (Real.sin (0.5 * cornerTheta p0 p1 p2) /
    Real.cos (0.5 * cornerTheta p0 p1 p2))

/-- The Go local `start` of `appendSmoothedCorner` (polygon.go line 262). -/
def cornerStart (p0 p1 p2 : Vec) (r : ℝ) : Vec :=
  Add p1 (Scale (cornerD p0 p1 p2 r) (cornerUnitTo p0 p1))

/-- The Go local `end` of `appendSmoothedCorner` (polygon.go line 263). -/
def cornerEnd (p0 p1 p2 : Vec) (r : ℝ) : Vec :=
  Add p1 (Scale (cornerD p0 p1 p2 r) (cornerUnitTo p2 p1))

/-- The Go local `arcCenter` of `appendSmoothedCorner` (polygon.go lines
270-271): `p1 + (r/sint) · Unit(V10n + V12n)`. -/
def cornerArcCenter (p0 p1 p2 : Vec) (r : ℝ) : Vec :=
  Add p1 (Scale (r / Real.sin (0.5 * cornerTheta p0 p1 p2))
    (Unit (Add (cornerUnitTo p0 p1) (cornerUnitTo p2 p1))))

/-- The Go local `arcAngle` of `appendSmoothedCorner` (polygon.go lines
272-273): `π - theta`, signed by the orientation of start, corner, end. -/
def cornerArcAngle (p0 p1 p2 : Vec) (r : ℝ) : ℝ :=
  CopyOrientation (Real.pi - cornerTheta p0 p1 p2)
    (cornerStart p0 p1 p2 r) p1 (cornerEnd p0 p1 p2 r)

/-- `func appendSmoothedCorner(dst []Vec, p0, p1, p2 Vec, r float32,
facets int32) ([]Vec, error)` (polygon.go): fillet kernel for the corner
`p1` with neighbors `p0`, `p2`. The Go locals (`V10n`, `theta`, `d`,
`start`, `end`, `arcCenter`, `arcAngle`) are the named definitions above;
`dst1`/`dst2`/`dst3` are inlined. -/
def appendSmoothedCorner (dst : List Vec) (p0 p1 p2 : Vec) (r : ℝ)
    (facets : ℤ) : List Vec × Option GeomErr :=
  if facets ≤ 1 then (dst, none)
  else if r - Norm (Sub p0 p1) > arcTol ∨ r - Norm (Sub p2 p1) > arcTol then
    (dst, some GeomErr.largeSmoothRadius)
  else if Norm (Sub p0 p1) = 0 ∨ Norm (Sub p2 p1) = 0 then
    (dst, some GeomErr.badSmooth)
  else if |cornerTheta p0 p1 p2| < arcTol then (dst, some GeomErr.badSmooth)
  else if |cornerTheta p0 p1 p2 - Real.pi| < arcTol then
    (dst, some GeomErr.badSmooth)
  else
    (if ¬EqualElem p2 (cornerEnd p0 p1 p2 r) (arcTol * Norm (Sub p2 p1)) then
      appendArcWithCenter
        (if ¬EqualElem p0 (cornerStart p0 p1 p2 r) (arcTol * Norm (Sub p0 p1))
          then dst ++ [cornerStart p0 p1 p2 r] else dst)
        (cornerStart p0 p1 p2 r) (cornerArcCenter p0 p1 p2 r)
        (cornerArcAngle p0 p1 p2 r) facets ++ [cornerEnd p0 p1 p2 r]
    else
      appendArcWithCenter
        (if ¬EqualElem p0 (cornerStart p0 p1 p2 r) (arcTol * Norm (Sub p0 p1))
          then dst ++ [cornerStart p0 p1 p2 r] else dst)
        (cornerStart p0 p1 p2 r) (cornerArcCenter p0 p1 p2 r)
        (cornerArcAngle p0 p1 p2 r) facets, none)

/-- One iteration body of the `AppendVecs` loop (polygon.go lines 113-121):
dispatch on arc, smoothed or sharp control point. In the arc branch the
explicit endpoint `current.v` is appended after the kernel call regardless of
the kernel error, exactly as in the Go code. -/
def avStep (next : Vec) (prev current : PolygonControlPoint)
    (buf : List Vec) : List Vec × Option GeomErr :=
  if isArc current then
    ((appendArc2points buf prev.v current.v current.radius
        (-current.facets)).1 ++ [current.v],
     (appendArc2points buf prev.v current.v current.radius
        (-current.facets)).2)
  else if isSmoothed current then
    appendSmoothedCorner buf prev.v current.v next current.radius
      current.facets
  else (buf ++ [current.v], none)

/-- The `for i := range p.verts` loop of `AppendVecs` (polygon.go lines
107-126), with the running index `i`, the previous control point and the
accumulated buffer as explicit state. `next` is passed to the body
unconditionally; the Go code reads it only in the smoothed branch, and the
read is pure. -/
def avLoop (verts : List PolygonControlPoint) (buf : List Vec)
    (prev : PolygonControlPoint) (i : ℕ) : List Vec × Option AVError :=
  if h : i < verts.length then
    if i ≠ 0 ∧ prev = verts.get ⟨i, h⟩ then
      (buf, some (AVError.cp i GeomErr.cpEqualToPrev))
    else
      match avStep (verts.get ⟨(i + 1) % verts.length,
          Nat.mod_lt _ (by omega)⟩).v prev (verts.get ⟨i, h⟩) buf with
      | (buf2, some e) => (buf2, some (AVError.cp i e))
      | (buf2, none) => avLoop verts buf2 (verts.get ⟨i, h⟩) (i + 1)
  else (buf, none)
termination_by verts.length - i

/-- `func (p *PolygonBuilder) AppendVecs(buf []Vec) ([]Vec, error)`
(polygon.go), with the builder state `p.verts` as an explicit list. -/
def AppendVecs (verts : List PolygonControlPoint) (buf : List Vec) :
    List Vec × Option AVError :=
  if h : verts.length < 2 then (buf, some AVError.tooFewVertices)
  else avLoop verts buf (verts.get ⟨verts.length - 1, by omega⟩) 0

/-- `func (p *PolygonBuilder) Reset()` (polygon.go). -/
def Reset (_verts : List PolygonControlPoint) : List PolygonControlPoint :=
  []

/-- The `for i := 0; i < n; i++` loop of `NagonSmoothed` (polygon.go lines
51-54): add `k` control points, smoothing each, rotating `v` by `m` after
each addition. -/
def nagonLoop (m : Mat2) (v : Vec) (radius : ℝ) (facets : ℤ) :
    ℕ → List PolygonControlPoint
  | 0 => []
  | k + 1 =>
    Smooth ⟨v, 0, 0⟩ radius facets :: nagonLoop m (MulMatVec m v) radius facets k

/-- `func (p *PolygonBuilder) NagonSmoothed(n int, centerDistance float32,
facets int, radius float32)` (polygon.go), as a pure function on the builder
vertex list. -/
def NagonSmoothed (verts : List PolygonControlPoint) (n : ℤ)
    (centerDistance : ℝ) (facets : ℤ) (radius : ℝ) :
    List PolygonControlPoint :=
  if n < 3 ∨ (radius ≠ 0 ∧ radius > centerDistance) then verts
  else
    Reset verts ++
      nagonLoop (RotationMat2 (2 * Real.pi / (n : ℝ)))
        ⟨centerDistance, 0⟩ radius facets n.toNat

/-- `func (p *PolygonBuilder) Nagon(n int, centerDistance float32)`
(polygon.go). -/
def Nagon (verts : List PolygonControlPoint) (n : ℤ)
    (centerDistance : ℝ) : List PolygonControlPoint :=
  NagonSmoothed verts n centerDistance 0 0

end

/-! ## Shared helper lemmas -/

/-- The norm of the zero vector is 0. -/
theorem Norm_zero : Norm ⟨0, 0⟩ = 0 := by
  simp [Norm]

/-- Norm of an axis-aligned vector with nonnegative component. -/
theorem Norm_axis (x : ℝ) (hx : 0 ≤ x) : Norm ⟨x, 0⟩ = x := by
  simp [Norm]
  rw [Real.sqrt_sq hx]

/-- Length of the `nagonLoop` output. -/
theorem nagonLoop_length (m : Mat2) (v : Vec) (radius : ℝ) (facets : ℤ)
    (k : ℕ) : (nagonLoop m v radius facets k).length = k := by
  induction k generalizing v with
  | zero => rfl
  | succ k ih => simp [nagonLoop, ih]

/-- Key input for the C8 analysis: the half-chord angle of the chord
`2·cos(5e-7)` against radius magnitude 1. -/
theorem arcsin_cos_small : Real.arcsin (Real.cos 5e-7) = Real.pi / 2 - 5e-7 := by
  have h3 := Real.two_le_pi
  rw [show Real.cos 5e-7 = Real.sin (Real.pi / 2 - 5e-7) from
    (Real.sin_pi_div_two_sub 5e-7).symm]
  exact Real.arcsin_sin (by linarith) (by norm_num)

/-- An error produced by the generator walk from index `i` onwards always
reports an index at least `i`: the walk never revisits earlier control
points. -/
theorem avLoop_error_index (verts : List PolygonControlPoint) :
    ∀ (fuel i : ℕ) (buf : List Vec) (prev : PolygonControlPoint),
    verts.length ≤ i + fuel →
    ∀ (k : ℕ) (e : GeomErr),
    (avLoop verts buf prev i).2 = some (AVError.cp k e) → i ≤ k := by
  intro fuel
  induction fuel with
  | zero =>
    intro i buf prev hle k e h
    rw [avLoop, dif_neg (by omega)] at h
    simp at h
  | succ n ih =>
    intro i buf prev hle k e h
    by_cases hi : i < verts.length
    · rw [avLoop, dif_pos hi] at h
      by_cases hdup : i ≠ 0 ∧ prev = verts.get ⟨i, hi⟩
      · rw [if_pos hdup] at h
        simp at h
        omega
      · rw [if_neg hdup] at h
        cases hstep : avStep (verts.get ⟨(i + 1) % verts.length,
            Nat.mod_lt _ (by omega)⟩).v prev (verts.get ⟨i, hi⟩) buf with
        | mk buf2 e2 =>
          rw [hstep] at h
          cases e2 with
          | some e3 =>
            simp at h
            omega
          | none =>
            simp only [] at h
            have := ih (i + 1) buf2 (verts.get ⟨i, hi⟩) (by omega) k e h
            omega
    · rw [avLoop, dif_neg hi] at h
      simp at h

/-- A generator walk over sharp control points only (neither arc nor
smoothed), with no two consecutive points equal, succeeds and appends
exactly the control point positions in order. -/
theorem avLoop_sharp (verts : List PolygonControlPoint)
    (hsharp : ∀ cp ∈ verts, ¬isArc cp ∧ ¬isSmoothed cp)
    (hne : ∀ (j : ℕ) (hj : j < verts.length) (hj1 : j - 1 < verts.length),
      j ≠ 0 → verts.get ⟨j - 1, hj1⟩ ≠ verts.get ⟨j, hj⟩) :
    ∀ (fuel i : ℕ) (buf : List Vec) (prev : PolygonControlPoint),
    verts.length ≤ i + fuel →
    (∀ (_ : i ≠ 0) (hi1 : i - 1 < verts.length),
      prev = verts.get ⟨i - 1, hi1⟩) →
    avLoop verts buf prev i =
      (buf ++ (verts.drop i).map (fun cp => cp.v), none) := by
  intro fuel
  induction fuel with
  | zero =>
    intro i buf prev hle _
    rw [avLoop, dif_neg (by omega), List.drop_eq_nil_of_le (by omega),
      List.map_nil, List.append_nil]
  | succ n ih =>
    intro i buf prev hle hprev
    by_cases hi : i < verts.length
    · have hcur := hsharp (verts.get ⟨i, hi⟩) (List.get_mem verts i hi)
      rw [avLoop, dif_pos hi, if_neg ?hdup]
      case hdup =>
        intro hd
        exact hne i hi (by omega) hd.1
          (((hprev hd.1 (by omega)).symm.trans hd.2))
      have hstep : avStep (verts.get ⟨(i + 1) % verts.length,
          Nat.mod_lt _ (by omega)⟩).v prev (verts.get ⟨i, hi⟩) buf =
          (buf ++ [(verts.get ⟨i, hi⟩).v], none) := by
        rw [avStep, if_neg hcur.1, if_neg hcur.2]
      rw [hstep]
      have hrec := ih (i + 1) (buf ++ [(verts.get ⟨i, hi⟩).v])
        (verts.get ⟨i, hi⟩) (by omega) (fun _ _ => rfl)
      refine hrec.trans ?_
      have hdrop : verts.get ⟨i, hi⟩ :: verts.drop (i + 1) = verts.drop i := by
        simpa using List.getElem_cons_drop verts i hi
      rw [← hdrop, List.map_cons]
      simp
    · rw [avLoop, dif_neg hi, List.drop_eq_nil_of_le (by omega),
        List.map_nil, List.append_nil]

/-! ## C3: duplicate detection -/

/-- C3 counterexample: a three-point polygon whose last control point has
the same position (and annotations) as the first. The claim says generation
must fail with DuplicateControlPoint at index 0 since the predecessor of
index 0 is cyclically the last point; the code skips the check at `i = 0`
(`i != 0 && prev == current`) and generation succeeds. -/
theorem duplicate_detection_counterexample :
    (AppendVecs [⟨⟨0, 0⟩, 0, 0⟩, ⟨⟨1, 0⟩, 0, 0⟩, ⟨⟨0, 0⟩, 0, 0⟩] []).2 =
      none := by
  rw [AppendVecs, dif_neg (by norm_num)]
  rw [avLoop_sharp _ ?sharp ?ne 3 0 _ _ (by norm_num) (fun h _ => absurd rfl h)]
  case sharp =>
    intro cp hcp
    simp only [List.mem_cons, List.not_mem_nil, or_false] at hcp
    rcases hcp with h | h | h <;> subst h <;>
      exact ⟨fun hc => by norm_num [isArc] at hc,
        fun hc => by norm_num [isSmoothed] at hc⟩
  case ne =>
    intro j hj hj1 hj0
    simp only [List.length_cons, List.length_nil] at hj
    interval_cases j
    · exact absurd rfl hj0
    · show (⟨⟨0, 0⟩, 0, 0⟩ : PolygonControlPoint) ≠ ⟨⟨1, 0⟩, 0, 0⟩
      intro h
      have := congrArg (fun cp => cp.v.X) h
      norm_num at this
    · show (⟨⟨1, 0⟩, 0, 0⟩ : PolygonControlPoint) ≠ ⟨⟨0, 0⟩, 0, 0⟩
      intro h
      have := congrArg (fun cp => cp.v.X) h
      norm_num at this

/-- C3 amended: for `i ≠ 0`, when the walk reaches control point `i` (so the
running `prev` is control point `i-1`) and `verts[i-1]` equals `verts[i]` as
a whole control point (position, radius and facets — position alone does not
trigger the check), the walk stops with DuplicateControlPoint at index `i`,
returning the buffer accumulated so far. The cyclic pair (last, first) is
never checked. -/
theorem duplicate_detection_amended (verts : List PolygonControlPoint)
    (buf : List Vec) (i : ℕ) (h : i < verts.length) (hi : i ≠ 0)
    (h1 : i - 1 < verts.length)
    (hdup : verts.get ⟨i - 1, h1⟩ = verts.get ⟨i, h⟩) :
    avLoop verts buf (verts.get ⟨i - 1, h1⟩) i =
      (buf, some (AVError.cp i GeomErr.cpEqualToPrev)) := by
  rw [avLoop, dif_pos h, if_pos ⟨hi, hdup⟩]

/-- C3 amended witness: a concrete two-point builder with identical
consecutive control points fails at index 1 with the duplicate error. -/
theorem duplicate_detection_amended_witness :
    avLoop [⟨⟨0, 0⟩, 0, 0⟩, ⟨⟨0, 0⟩, 0, 0⟩] [] ⟨⟨0, 0⟩, 0, 0⟩ 1 =
      ([], some (AVError.cp 1 GeomErr.cpEqualToPrev)) :=
  duplicate_detection_amended [⟨⟨0, 0⟩, 0, 0⟩, ⟨⟨0, 0⟩, 0, 0⟩] [] 1
    (by norm_num) (by norm_num) (by norm_num) rfl

/-! ## C4: error propagation and atomic abort -/

/-- C4: if the arc or fillet kernel fails while the walk processes control
point `i`, the walk halts at once with the buffer as left by step `i` and
the error wrapped with index `i` (first conjunct); moreover the halted
result is unchanged if the control points strictly after index `i+1` are
replaced arbitrarily (second conjunct) — no later control point contributes
any vertex. -/
theorem kernel_error_abort :
    (∀ (verts : List PolygonControlPoint) (buf : List Vec)
      (prev : PolygonControlPoint) (i : ℕ) (h : i < verts.length)
      (hn : (i + 1) % verts.length < verts.length),
      ¬(i ≠ 0 ∧ prev = verts.get ⟨i, h⟩) →
      ∀ e, (avStep (verts.get ⟨(i + 1) % verts.length, hn⟩).v prev
          (verts.get ⟨i, h⟩) buf).2 = some e →
      avLoop verts buf prev i =
        ((avStep (verts.get ⟨(i + 1) % verts.length, hn⟩).v prev
            (verts.get ⟨i, h⟩) buf).1, some (AVError.cp i e))) ∧
    (∀ (verts verts2 : List PolygonControlPoint) (buf out : List Vec)
      (prev : PolygonControlPoint) (i : ℕ) (e : GeomErr),
      verts.length = verts2.length →
      (∀ j, j ≤ i + 1 → verts.get? j = verts2.get? j) →
      avLoop verts buf prev i = (out, some (AVError.cp i e)) →
      avLoop verts2 buf prev i = (out, some (AVError.cp i e))) := by
  constructor
  · intro verts buf prev i h hn hnd e he
    rw [avLoop, dif_pos h, if_neg hnd]
    cases hstep : avStep (verts.get ⟨(i + 1) % verts.length,
        Nat.mod_lt _ (by omega)⟩).v prev (verts.get ⟨i, h⟩) buf with
    | mk buf2 e2 =>
      rw [hstep] at he
      have he2 : e2 = some e := he
      subst he2
      rfl
  · intro verts verts2 buf out prev i e hlen hagree hrun
    by_cases hi : i < verts.length
    · have hi2 : i < verts2.length := by omega
      have hcur : verts2.get ⟨i, hi2⟩ = verts.get ⟨i, hi⟩ := by
        have h3 := hagree i (by omega)
        rw [List.get?_eq_get hi, List.get?_eq_get hi2] at h3
        exact (Option.some.inj h3).symm
      have hmodlt : (i + 1) % verts.length < verts.length :=
        Nat.mod_lt _ (by omega)
      have hmodlt2 : (i + 1) % verts2.length < verts2.length :=
        Nat.mod_lt _ (by omega)
      have hidx2 : (i + 1) % verts.length < verts2.length := by omega
      have h4 := hagree ((i + 1) % verts.length)
        (Nat.le_trans (Nat.mod_le _ _) (Nat.le_refl _))
      rw [List.get?_eq_get hmodlt, List.get?_eq_get hidx2] at h4
      have hfin : (⟨(i + 1) % verts2.length, hmodlt2⟩ : Fin verts2.length) =
          ⟨(i + 1) % verts.length, hidx2⟩ :=
        Fin.ext (congrArg (fun t => (i + 1) % t) hlen.symm)
      have hnext : verts2.get ⟨(i + 1) % verts2.length, hmodlt2⟩ =
          verts.get ⟨(i + 1) % verts.length, hmodlt⟩ := by
        rw [hfin]
        exact (Option.some.inj h4).symm
      rw [avLoop, dif_pos hi] at hrun
      rw [avLoop, dif_pos hi2, hcur, hnext]
      by_cases hdup : i ≠ 0 ∧ prev = verts.get ⟨i, hi⟩
      · rw [if_pos hdup] at hrun ⊢
        exact hrun
      · rw [if_neg hdup] at hrun ⊢
        cases hstep : avStep (verts.get ⟨(i + 1) % verts.length,
            Nat.mod_lt _ (by omega)⟩).v prev (verts.get ⟨i, hi⟩) buf with
        | mk buf2 e2 =>
          rw [hstep] at hrun
          cases e2 with
          | some e3 => exact hrun
          | none =>
            exfalso
            have hrun2 : avLoop verts buf2 (verts.get ⟨i, hi⟩) (i + 1) =
                (out, some (AVError.cp i e)) := hrun
            have hidx := avLoop_error_index verts (verts.length - (i + 1))
              (i + 1) buf2 (verts.get ⟨i, hi⟩) (by omega) i e
              (by rw [hrun2])
            omega
    · rw [avLoop, dif_neg hi] at hrun
      simp at hrun

/-- C4 witness: a concrete two-point builder whose second control point is a
fillet with radius exceeding the edge length; the walk halts at index 1 with
LargeSmoothRadius and the buffer accumulated before the failing kernel. -/
theorem kernel_error_abort_witness :
    avLoop [⟨⟨1, 0⟩, 0, 0⟩, ⟨⟨0, 0⟩, 10, 2⟩] [⟨1, 0⟩] ⟨⟨1, 0⟩, 0, 0⟩ 1 =
      ([⟨1, 0⟩], some (AVError.cp 1 GeomErr.largeSmoothRadius)) := by
  have hlen : (1 + 1) %
      ([⟨⟨1, 0⟩, 0, 0⟩, ⟨⟨0, 0⟩, 10, 2⟩] : List PolygonControlPoint).length <
      ([⟨⟨1, 0⟩, 0, 0⟩, ⟨⟨0, 0⟩, 10, 2⟩] : List PolygonControlPoint).length := by
    norm_num
  have h1 : (1 : ℕ) <
      ([⟨⟨1, 0⟩, 0, 0⟩, ⟨⟨0, 0⟩, 10, 2⟩] : List PolygonControlPoint).length := by
    norm_num
  have hstep : avStep (⟨1, 0⟩ : Vec) ⟨⟨1, 0⟩, 0, 0⟩ ⟨⟨0, 0⟩, 10, 2⟩
      [⟨1, 0⟩] = ([⟨1, 0⟩], some GeomErr.largeSmoothRadius) := by
    rw [avStep, if_neg (fun hc => by norm_num [isArc] at hc),
      if_pos (by norm_num [isSmoothed])]
    rw [appendSmoothedCorner, if_neg (by norm_num), if_pos]
    left
    have hx : Norm (Sub (⟨1, 0⟩ : Vec) ⟨0, 0⟩) = 1 := by
      simp [Sub]
      exact Norm_axis 1 (by norm_num)
    rw [hx, arcTol]
    norm_num
  have hstep2 : avStep
      ((([⟨⟨1, 0⟩, 0, 0⟩, ⟨⟨0, 0⟩, 10, 2⟩] : List PolygonControlPoint).get
        ⟨(1 + 1) %
          ([⟨⟨1, 0⟩, 0, 0⟩, ⟨⟨0, 0⟩, 10, 2⟩] : List PolygonControlPoint).length,
          hlen⟩).v)
      ⟨⟨1, 0⟩, 0, 0⟩
      (([⟨⟨1, 0⟩, 0, 0⟩, ⟨⟨0, 0⟩, 10, 2⟩] : List PolygonControlPoint).get
        ⟨1, h1⟩)
      [⟨1, 0⟩] = ([⟨1, 0⟩], some GeomErr.largeSmoothRadius) := hstep
  have happ := kernel_error_abort.1 [⟨⟨1, 0⟩, 0, 0⟩, ⟨⟨0, 0⟩, 10, 2⟩]
    [⟨1, 0⟩] ⟨⟨1, 0⟩, 0, 0⟩ 1 h1 hlen
    (by
      intro hd
      have := congrArg (fun cp => cp.v.X) hd.2
      norm_num at this)
    GeomErr.largeSmoothRadius (congrArg Prod.snd hstep2)
  rw [happ, congrArg Prod.fst hstep2]

/-! ## C5: chamfer path emits nothing -/

/-- C5: a fillet kernel invocation with `facets ≤ 1` returns the buffer
unchanged and no error; `Chamfer(size)` is exactly `Smooth(size·sqrt(1/2), 1)`;
hence a smoothed control point with `facets ≤ 1` contributes zero vertices
in the generator step. -/
theorem chamfer_path_emits_nothing :
    (∀ (dst : List Vec) (p0 p1 p2 : Vec) (r : ℝ) (facets : ℤ),
      facets ≤ 1 → appendSmoothedCorner dst p0 p1 p2 r facets = (dst, none)) ∧
    (∀ (cp : PolygonControlPoint) (size : ℝ),
      Chamfer cp size = Smooth cp (size * sqrtHalf) 1) ∧
    (∀ (next : Vec) (prev current : PolygonControlPoint) (buf : List Vec),
      isSmoothed current → current.facets ≤ 1 →
      avStep next prev current buf = (buf, none)) := by
  refine ⟨?_, ?_, ?_⟩
  · intro dst p0 p1 p2 r facets h
    rw [appendSmoothedCorner, if_pos h]
  · intro cp size
    rfl
  · intro next prev current buf hs hf
    have hna : ¬isArc current := by
      intro ha
      have := hs.1
      have := ha.1
      omega
    rw [avStep, if_neg hna, if_pos hs, appendSmoothedCorner, if_pos hf]

/-- C5 witness: a concrete smoothed control point with a single facet
contributes no vertex and no error. -/
theorem chamfer_path_emits_nothing_witness :
    appendSmoothedCorner [] ⟨0, 0⟩ ⟨1, 0⟩ ⟨2, 2⟩ 3 1 = ([], none) ∧
    avStep ⟨5, 5⟩ ⟨⟨0, 0⟩, 0, 0⟩ ⟨⟨1, 1⟩, 2, 1⟩ [] = ([], none) :=
  ⟨chamfer_path_emits_nothing.1 [] ⟨0, 0⟩ ⟨1, 0⟩ ⟨2, 2⟩ 3 1 (by norm_num),
   chamfer_path_emits_nothing.2.2 ⟨5, 5⟩ ⟨⟨0, 0⟩, 0, 0⟩ ⟨⟨1, 1⟩, 2, 1⟩ []
     ⟨by norm_num, by norm_num⟩ (by norm_num)⟩

/-! ## C7: coincident-neighbor failure -/

/-- C7 counterexample: with `p0 = p1` (so `n10 = 0`) and fillet radius
`r = 1 > arcTol`, the kernel fails with LargeSmoothRadius, not BadSmooth:
the radius guard `r - n10 > tol` is checked before the coincidence guard. -/
theorem coincident_neighbor_counterexample :
    appendSmoothedCorner [] ⟨0, 0⟩ ⟨0, 0⟩ ⟨1, 0⟩ 1 2 =
      ([], some GeomErr.largeSmoothRadius) := by
  have h0 : Norm (Sub ⟨0, 0⟩ ⟨0, 0⟩) = 0 := by
    simp [Sub]
    exact Norm_zero
  rw [appendSmoothedCorner, if_neg (by norm_num)]
  rw [if_pos]
  left
  rw [h0, arcTol]
  norm_num

/-- C7 amended: with `facets ≥ 2` and a coincident neighbor (`n10 = 0` or
`n12 = 0`), the kernel fails with BadSmooth provided the fillet radius does
not exceed either edge length by more than `arcTol` (otherwise the earlier
LargeSmoothRadius guard fires instead, as the counterexample shows). -/
theorem coincident_neighbor_badSmooth
    (dst : List Vec) (p0 p1 p2 : Vec) (r : ℝ) (facets : ℤ)
    (hf : 2 ≤ facets)
    (hz : Norm (Sub p0 p1) = 0 ∨ Norm (Sub p2 p1) = 0)
    (h1 : ¬(r - Norm (Sub p0 p1) > arcTol))
    (h2 : ¬(r - Norm (Sub p2 p1) > arcTol)) :
    appendSmoothedCorner dst p0 p1 p2 r facets =
      (dst, some GeomErr.badSmooth) := by
  rw [appendSmoothedCorner, if_neg (by omega), if_neg (by tauto), if_pos hz]

/-- C7 witness: concrete coincident-neighbor BadSmooth failure with a small
radius. -/
theorem coincident_neighbor_badSmooth_witness :
    appendSmoothedCorner [] ⟨0, 0⟩ ⟨0, 0⟩ ⟨1, 0⟩ (3 / 10) 2 =
      ([], some GeomErr.badSmooth) := by
  have h0 : Norm (Sub (⟨0, 0⟩ : Vec) ⟨0, 0⟩) = 0 := by
    simp [Sub]
    exact Norm_zero
  have h1 : Norm (Sub (⟨1, 0⟩ : Vec) ⟨0, 0⟩) = 1 := by
    simp [Sub]
    exact Norm_axis 1 (by norm_num)
  exact coincident_neighbor_badSmooth [] ⟨0, 0⟩ ⟨0, 0⟩ ⟨1, 0⟩ (3 / 10) 2
    (by norm_num) (Or.inl h0)
    (by rw [h0, arcTol]; norm_num) (by rw [h1, arcTol]; norm_num)

/-! ## C6: small-arc-radius failure condition -/

/-- C6: the arc-from-chord kernel fails exactly when the chord length
exceeds `2|r|` by more than `arcTol = 0.5`; the only failure is
SmallArcRadius; on success the returned sweep angle is
`copysign(2·halfAngle, r)` with the (possibly nudged) half angle. -/
theorem arc_from_chord_failure_spec (p1 p2 : Vec) (r : ℝ) :
    ((∃ e, arcCenterFrom2points p1 p2 r = Except.error e) ↔
      Norm (Sub p2 p1) - 2 * |r| > arcTol) ∧
    (∀ e, arcCenterFrom2points p1 p2 r = Except.error e →
      e = GeomErr.smallArcRadius) ∧
    (¬(Norm (Sub p2 p1) - 2 * |r| > arcTol) →
      ∃ c, arcCenterFrom2points p1 p2 r =
        Except.ok (c, copysign (2 * halfAngleAdjusted (Norm (Sub p2 p1)) |r|) r)) := by
  by_cases h : Norm (Sub p2 p1) - 2 * |r| > arcTol
  · refine ⟨⟨fun _ => h, fun _ => ⟨GeomErr.smallArcRadius, ?_⟩⟩, ?_, fun hc => absurd h hc⟩
    · rw [arcCenterFrom2points, if_pos h]
    · intro e he
      rw [arcCenterFrom2points, if_pos h] at he
      exact (Except.error.injEq _ _ ▸ he.symm).symm ▸ rfl
  · constructor
    · constructor
      · intro ⟨e, he⟩
        rw [arcCenterFrom2points, if_neg h] at he
        exact absurd he (by simp)
      · intro hc
        exact absurd hc h
    constructor
    · intro e he
      rw [arcCenterFrom2points, if_neg h] at he
      exact absurd he (by simp)
    · intro _
      rw [arcCenterFrom2points, if_neg h]
      exact ⟨_, rfl⟩

/-- C6 witness: a chord of length 2 with radius 1/2 exceeds `2|r| = 1` by
`1 > 0.5` and fails with SmallArcRadius; with radius 2 the kernel succeeds
and returns the copysign sweep angle. -/
theorem arc_from_chord_failure_spec_witness :
    (∀ e, arcCenterFrom2points ⟨0, 0⟩ ⟨2, 0⟩ (1 / 2) = Except.error e →
      e = GeomErr.smallArcRadius) ∧
    (∃ c, arcCenterFrom2points ⟨0, 0⟩ ⟨2, 0⟩ 2 =
      Except.ok (c, copysign
        (2 * halfAngleAdjusted (Norm (Sub ⟨2, 0⟩ ⟨0, 0⟩)) |(2 : ℝ)|) 2)) := by
  have hn : Norm (Sub (⟨2, 0⟩ : Vec) ⟨0, 0⟩) = 2 := by
    simp [Sub]
    exact Norm_axis 2 (by norm_num)
  exact ⟨(arc_from_chord_failure_spec ⟨0, 0⟩ ⟨2, 0⟩ (1 / 2)).2.1,
    (arc_from_chord_failure_spec ⟨0, 0⟩ ⟨2, 0⟩ 2).2.2
      (by rw [hn, arcTol]; norm_num)⟩

/-! ## C8: near-semicircle conditioning nudge -/

/-- C8 counterexample: for the chord `2·cos(5e-7)` against `|r| = 1` the
half angle is `π/2 - 5e-7`, within `1e-6` of `π/2`; the code adds `+1e-6`,
landing at `π/2 + 5e-7`: the adjusted value crosses `π/2` and its distance
to `π/2` is `5e-7`, not `1e-6` farther than before. -/
theorem nudge_counterexample :
    Real.arcsin ((2 * Real.cos 5e-7) / (2 * 1)) < Real.pi / 2 ∧
    halfAngleAdjusted (2 * Real.cos 5e-7) 1 = Real.pi / 2 + 5e-7 ∧
    ¬(|halfAngleAdjusted (2 * Real.cos 5e-7) 1 - Real.pi / 2| =
      |Real.arcsin ((2 * Real.cos 5e-7) / (2 * 1)) - Real.pi / 2| + 1e-6) := by
  have harg : (2 * Real.cos 5e-7) / (2 * 1) = Real.cos 5e-7 := by ring
  have ha : Real.arcsin ((2 * Real.cos 5e-7) / (2 * 1)) = Real.pi / 2 - 5e-7 := by
    rw [harg, arcsin_cos_small]
  have hadj : halfAngleAdjusted (2 * Real.cos 5e-7) 1 = Real.pi / 2 + 5e-7 := by
    rw [halfAngleAdjusted]
    rw [show (2 : ℝ) * 1 = 2 * 1 from rfl]
    rw [ha]
    rw [if_pos (by rw [abs_of_nonpos (by norm_num)]; norm_num)]
    rw [copysign, if_neg (by norm_num), abs_of_nonneg (by norm_num)]
    ring
  refine ⟨by rw [ha]; norm_num, hadj, ?_⟩
  rw [hadj, ha]
  intro hcl
  rw [abs_of_nonneg (by norm_num), abs_of_nonpos (by norm_num)] at hcl
  norm_num at hcl

/-- C8 amended: whenever the half angle `asin(chordLen/(2·rabs))` is within
`1e-6` of `π/2`, the correction adds `+1e-6` (the half angle never exceeds
`π/2`, so `copysign(1e-6, -diffTo90)` is positive); a half angle at distance
`d < 1e-6` below `π/2` is thus moved to distance `1e-6 - d` on the far side
of `π/2` — the correction crosses `π/2` rather than moving away from it. -/
theorem nudge_amended (chordLen rabs : ℝ)
    (h : |Real.arcsin (chordLen / (2 * rabs)) - Real.pi / 2| < 1e-6) :
    halfAngleAdjusted chordLen rabs =
      Real.arcsin (chordLen / (2 * rabs)) + 1e-6 ∧
    |halfAngleAdjusted chordLen rabs - Real.pi / 2| =
      1e-6 - |Real.arcsin (chordLen / (2 * rabs)) - Real.pi / 2| := by
  have hle : Real.arcsin (chordLen / (2 * rabs)) ≤ Real.pi / 2 :=
    Real.arcsin_le_pi_div_two _
  have habs : |Real.arcsin (chordLen / (2 * rabs)) - Real.pi / 2| =
      Real.pi / 2 - Real.arcsin (chordLen / (2 * rabs)) := by
    rw [abs_of_nonpos (by linarith)]
    ring
  have hd : Real.pi / 2 - Real.arcsin (chordLen / (2 * rabs)) < 1e-6 := by
    rw [habs] at h
    exact h
  have hadj : halfAngleAdjusted chordLen rabs =
      Real.arcsin (chordLen / (2 * rabs)) + 1e-6 := by
    rw [halfAngleAdjusted, if_pos h, copysign, if_neg (by linarith),
      abs_of_nonneg (by norm_num)]
  refine ⟨hadj, ?_⟩
  rw [hadj, habs, abs_of_nonneg (by linarith)]
  ring

/-- C8 amended witness: the concrete near-semicircle input of the
counterexample satisfies the nudge hypothesis and lands at distance
`1e-6 - 5e-7` from `π/2`. -/
theorem nudge_amended_witness :
    halfAngleAdjusted (2 * Real.cos 5e-7) 1 =
      Real.arcsin ((2 * Real.cos 5e-7) / (2 * 1)) + 1e-6 ∧
    |halfAngleAdjusted (2 * Real.cos 5e-7) 1 - Real.pi / 2| =
      1e-6 - |Real.arcsin ((2 * Real.cos 5e-7) / (2 * 1)) - Real.pi / 2| :=
  nudge_amended (2 * Real.cos 5e-7) 1 (by
    rw [show (2 * Real.cos 5e-7) / (2 * 1) = Real.cos 5e-7 by ring,
      arcsin_cos_small, abs_of_nonpos (by norm_num)]
    norm_num)

/-! ## C10: NagonSmoothed guard and replacement semantics -/

/-- C10: `NagonSmoothed` leaves the builder unchanged when `n < 3` or when
`radius ≠ 0 ∧ radius > centerDistance`; otherwise the result is exactly the
fresh `n`-point list, independent of the prior contents (replacement, not
append). -/
theorem nagonSmoothed_guard_replace (verts : List PolygonControlPoint)
    (n : ℤ) (centerDistance : ℝ) (facets : ℤ) (radius : ℝ) :
    ((n < 3 ∨ (radius ≠ 0 ∧ radius > centerDistance)) →
      NagonSmoothed verts n centerDistance facets radius = verts) ∧
    (¬(n < 3 ∨ (radius ≠ 0 ∧ radius > centerDistance)) →
      NagonSmoothed verts n centerDistance facets radius =
        nagonLoop (RotationMat2 (2 * Real.pi / (n : ℝ)))
          ⟨centerDistance, 0⟩ radius facets n.toNat ∧
      (NagonSmoothed verts n centerDistance facets radius).length = n.toNat) := by
  constructor
  · intro h
    rw [NagonSmoothed, if_pos h]
  · intro h
    have heq : NagonSmoothed verts n centerDistance facets radius =
        nagonLoop (RotationMat2 (2 * Real.pi / (n : ℝ)))
          ⟨centerDistance, 0⟩ radius facets n.toNat := by
      rw [NagonSmoothed, if_neg h, Reset, List.nil_append]
    exact ⟨heq, by rw [heq, nagonLoop_length]⟩

/-- C10 witness: `n = 2` leaves a one-point builder unchanged; `n = 3` with
zero radius replaces prior contents with exactly 3 points. -/
theorem nagonSmoothed_guard_replace_witness :
    NagonSmoothed [⟨⟨1, 2⟩, 0, 0⟩] 2 5 3 0 = [⟨⟨1, 2⟩, 0, 0⟩] ∧
    (NagonSmoothed [⟨⟨1, 2⟩, 0, 0⟩] 3 1 0 0).length = 3 :=
  ⟨(nagonSmoothed_guard_replace [⟨⟨1, 2⟩, 0, 0⟩] 2 5 3 0).1 (by norm_num),
   ((nagonSmoothed_guard_replace [⟨⟨1, 2⟩, 0, 0⟩] 3 1 0 0).2 (by norm_num)).2⟩

/-! ## Rotation lemmas for C1, C2 and C9 -/

/-- Rotations compose by angle addition. -/
theorem rot_comp (a b : ℝ) (v : Vec) :
    MulMatVec (RotationMat2 a) (MulMatVec (RotationMat2 b) v) =
      MulMatVec (RotationMat2 (a + b)) v := by
  simp only [RotationMat2, MulMatVec, Real.cos_add, Real.sin_add, Vec.mk.injEq]
  exact ⟨by ring, by ring⟩

/-- Rotation by the zero angle is the identity. -/
theorem rot_zero (v : Vec) : MulMatVec (RotationMat2 0) v = v := by
  simp [RotationMat2, MulMatVec]

/-- A rotation whose cosine is not 1 moves every nonzero vector. -/
theorem rot_fixed (a : ℝ) (v : Vec) (hc : Real.cos a ≠ 1)
    (hv : ¬(v.X = 0 ∧ v.Y = 0)) :
    MulMatVec (RotationMat2 a) v ≠ v := by
  intro h
  have h1 := congrArg (fun w => w.X) h
  have h2 := congrArg (fun w => w.Y) h
  simp only [MulMatVec, RotationMat2] at h1 h2
  have hsum : (Real.cos a - 1) * (v.X ^ 2 + v.Y ^ 2) = 0 := by
    linear_combination v.X * h1 + v.Y * h2
  rcases mul_eq_zero.mp hsum with h3 | h3
  · exact hc (by linarith)
  · have hx : v.X ^ 2 = 0 := by nlinarith [sq_nonneg v.X, sq_nonneg v.Y]
    have hy : v.Y ^ 2 = 0 := by nlinarith [sq_nonneg v.X, sq_nonneg v.Y]
    exact hv ⟨pow_eq_zero_iff two_ne_zero |>.mp hx,
      pow_eq_zero_iff two_ne_zero |>.mp hy⟩

/-- Rotation preserves the Euclidean norm. -/
theorem rot_norm (a : ℝ) (v : Vec) :
    Norm (MulMatVec (RotationMat2 a) v) = Norm v := by
  simp only [Norm, MulMatVec, RotationMat2]
  congr 1
  have hcs := Real.sin_sq_add_cos_sq a
  ring_nf
  nlinarith [hcs]

/-- `arcPoints` produces exactly `k` points. -/
theorem arcPoints_length (T : Mat2) (c : Vec) (k : ℕ) :
    ∀ rv, (arcPoints T c rv k).length = k := by
  induction k with
  | zero => intro rv; rfl
  | succ n ih => intro rv; simp [arcPoints, ih]

/-- Every point produced by `arcPoints` with step angle `a` is the center
plus the start-relative vector rotated by a positive multiple of `a`. -/
theorem arcPoints_mem (a : ℝ) (c : Vec) (k : ℕ) :
    ∀ (rv q : Vec), q ∈ arcPoints (RotationMat2 a) c rv k →
    ∃ j : ℕ, 1 ≤ j ∧ j ≤ k ∧
      q = Add c (MulMatVec (RotationMat2 ((j : ℝ) * a)) rv) := by
  induction k with
  | zero =>
    intro rv q h
    simp [arcPoints] at h
  | succ n ih =>
    intro rv q h
    simp only [arcPoints, List.mem_cons] at h
    rcases h with h | h
    · exact ⟨1, le_refl _, by omega, by rw [h]; norm_num⟩
    · obtain ⟨j, hj1, hjn, hq⟩ := ih (MulMatVec (RotationMat2 a) rv) q h
      refine ⟨j + 1, by omega, by omega, ?_⟩
      rw [hq, rot_comp,
        show (j : ℝ) * a + a = ((j + 1 : ℕ) : ℝ) * a by push_cast; ring]

/-- Every point produced by `arcPoints` lies at the same distance from the
center as the start-relative vector. -/
theorem arcPoints_norm (a : ℝ) (c : Vec) (k : ℕ) :
    ∀ (rv q : Vec), q ∈ arcPoints (RotationMat2 a) c rv k →
    Norm (Sub q c) = Norm rv := by
  intro rv q h
  obtain ⟨j, _, _, hq⟩ := arcPoints_mem a c k rv q h
  have hsub : Sub (Add c (MulMatVec (RotationMat2 ((j : ℝ) * a)) rv)) c =
      MulMatVec (RotationMat2 ((j : ℝ) * a)) rv := by
    ext <;> simp [Sub, Add]
  rw [hq, hsub, rot_norm]

/-- Adding a vector and subtracting the base recovers the vector. -/
theorem Add_Sub_cancel (c s : Vec) : Add c (Sub s c) = s := by
  ext <;> simp [Add, Sub]

/-- `Add` is left-cancellative. -/
theorem Add_left_cancel (c a b : Vec) (h : Add c a = Add c b) : a = b := by
  have h1 := congrArg (fun w => w.X) h
  have h2 := congrArg (fun w => w.Y) h
  simp only [Add] at h1 h2
  ext
  · linarith
  · linarith

/-! ## C1: vertex-count law -/

/-- C1 counterexample: with `start = center` the start-relative vector is
zero, so every point appended by `appendArcWithCenter` equals the start
itself (here: sweep `π`, `facets = 2` appends exactly the start),
contradicting the claim that the generator never appends the start for
every start, center and sweep angle. -/
theorem vertex_count_counterexample :
    (⟨0, 0⟩ : Vec) ∈ appendArcWithCenter [] ⟨0, 0⟩ ⟨0, 0⟩ Real.pi 2 := by
  norm_num [appendArcWithCenter, arcPoints, Sub, MulMatVec, Add]

/-- C1 amended: `appendArcWithCenter` always appends exactly
`(facets-1).toNat` points (first conjunct); a sharp control point
contributes exactly 1 vertex (second conjunct); an arc-mode control point
with facet count `F = -facets` contributes exactly `F` vertices when its
kernel succeeds (third conjunct); and — provided `start ≠ center` and
`0 < |sweep| < 2π`, which excludes the degenerate counterexample — no
appended interior point equals the start or the true arc endpoint (fourth
conjunct). -/
theorem vertex_count_amended :
    (∀ (dst : List Vec) (start center : Vec) (arcAngle : ℝ) (facets : ℤ),
      (appendArcWithCenter dst start center arcAngle facets).length =
        dst.length + (facets - 1).toNat) ∧
    (∀ (next : Vec) (prev current : PolygonControlPoint) (buf : List Vec),
      ¬isArc current → ¬isSmoothed current →
      (avStep next prev current buf).1.length = buf.length + 1) ∧
    (∀ (next : Vec) (prev current : PolygonControlPoint) (buf : List Vec),
      isArc current → (avStep next prev current buf).2 = none →
      (avStep next prev current buf).1.length =
        buf.length + (-current.facets).toNat) ∧
    (∀ (dst : List Vec) (start center : Vec) (arcAngle : ℝ) (facets : ℤ),
      2 ≤ facets → start ≠ center → arcAngle ≠ 0 →
      |arcAngle| < 2 * Real.pi →
      ∀ q ∈ (appendArcWithCenter dst start center arcAngle facets).drop
        dst.length,
      q ≠ start ∧
        q ≠ Add center (MulMatVec (RotationMat2 arcAngle) (Sub start center))) := by
  refine ⟨?_, ?_, ?_, ?_⟩
  · intro dst start center arcAngle facets
    rw [appendArcWithCenter, List.length_append, arcPoints_length]
  · intro next prev current buf hna hns
    rw [avStep, if_neg hna, if_neg hns]
    simp
  · intro next prev current buf ha he
    rw [avStep, if_pos ha] at he ⊢
    have he2 : (appendArc2points buf prev.v current.v current.radius
        (-current.facets)).2 = none := he
    show ((appendArc2points buf prev.v current.v current.radius
        (-current.facets)).1 ++ [current.v]).length =
      buf.length + (-current.facets).toNat
    rw [List.length_append]
    have hfpos : 1 ≤ -current.facets := by
      have := ha.1
      omega
    by_cases hf : -current.facets ≤ 1
    · rw [appendArc2points, if_pos hf]
      have : -current.facets = 1 := by omega
      rw [this]
      simp
    · rw [appendArc2points, if_neg hf] at he2 ⊢
      cases harc : arcCenterFrom2points prev.v current.v current.radius with
      | error e =>
        rw [harc] at he2
        simp at he2
      | ok ca =>
        cases ca with
        | mk arcCenter2 arcAngle2 =>
          rw [harc] at he2
          show (appendArcWithCenter buf prev.v arcCenter2 arcAngle2
            (-current.facets)).length + [current.v].length =
            buf.length + (-current.facets).toNat
          rw [appendArcWithCenter, List.length_append, arcPoints_length]
          simp only [List.length_singleton]
          omega
  · intro dst start center arcAngle facets hf hsc ha h2pi q hq
    rw [appendArcWithCenter, List.drop_left] at hq
    obtain ⟨j, hj1, hjk, hq⟩ :=
      arcPoints_mem (arcAngle / (facets : ℝ)) center ((facets - 1).toNat)
        (Sub start center) q hq
    have hrv : ¬((Sub start center).X = 0 ∧ (Sub start center).Y = 0) := by
      intro hz
      apply hsc
      have h1 : start.X - center.X = 0 := hz.1
      have h2 : start.Y - center.Y = 0 := hz.2
      cases start
      cases center
      simp only [Vec.mk.injEq]
      constructor <;> [linarith [h1]; linarith [h2]]
    have hF : (2 : ℝ) ≤ (facets : ℝ) := by exact_mod_cast hf
    have hjR : (1 : ℝ) ≤ (j : ℝ) := by exact_mod_cast hj1
    have hjF : (j : ℝ) ≤ (facets : ℝ) - 1 := by
      have hz : (j : ℤ) ≤ facets - 1 := by omega
      have hzr : ((j : ℤ) : ℝ) ≤ ((facets - 1 : ℤ) : ℝ) := by
        exact_mod_cast hz
      push_cast at hzr
      linarith
    have hapos : 0 < |arcAngle| := abs_pos.mpr ha
    have hx0 : (j : ℝ) * (arcAngle / (facets : ℝ)) ≠ 0 := by
      apply mul_ne_zero (by positivity)
      exact div_ne_zero ha (by positivity)
    have hxabs : |(j : ℝ) * (arcAngle / (facets : ℝ))| < 2 * Real.pi := by
      rw [abs_mul, abs_div, Nat.abs_cast,
        abs_of_pos (by positivity : (0:ℝ) < (facets : ℝ))]
      have hlt : (j : ℝ) * (|arcAngle| / (facets : ℝ)) < |arcAngle| := by
        rw [← mul_div_assoc, div_lt_iff (by positivity)]
        nlinarith
      linarith
    have heqy : arcAngle - (j : ℝ) * (arcAngle / (facets : ℝ)) =
        arcAngle * (((facets : ℝ) - (j : ℝ)) / (facets : ℝ)) := by
      field_simp
      ring
    have hy0 : arcAngle - (j : ℝ) * (arcAngle / (facets : ℝ)) ≠ 0 := by
      rw [heqy]
      exact mul_ne_zero ha (ne_of_gt (div_pos (by linarith) (by linarith)))
    have hyabs : |arcAngle - (j : ℝ) * (arcAngle / (facets : ℝ))| <
        2 * Real.pi := by
      rw [heqy, abs_mul, abs_div]
      have hnum : |(facets : ℝ) - (j : ℝ)| = (facets : ℝ) - (j : ℝ) :=
        abs_of_pos (by linarith)
      have hden : |(facets : ℝ)| = (facets : ℝ) :=
        abs_of_pos (by linarith)
      rw [hnum, hden]
      have hfrac : ((facets : ℝ) - (j : ℝ)) / (facets : ℝ) ≤ 1 := by
        rw [div_le_one (by linarith)]
        linarith
      have hbound : |arcAngle| * (((facets : ℝ) - (j : ℝ)) / (facets : ℝ)) ≤
          |arcAngle| := by
        nlinarith [abs_nonneg arcAngle, hfrac,
          div_nonneg (by linarith : (0:ℝ) ≤ (facets : ℝ) - (j : ℝ))
            (by linarith : (0:ℝ) ≤ (facets : ℝ))]
      linarith
    constructor
    · intro hqs
      have hq2 : Add center
          (MulMatVec (RotationMat2 ((j : ℝ) * (arcAngle / (facets : ℝ))))
            (Sub start center)) = Add center (Sub start center) := by
        rw [← hq, hqs, Add_Sub_cancel]
      have hq3 := Add_left_cancel _ _ _ hq2
      exact rot_fixed _ (Sub start center)
        (fun hc => hx0 ((Real.cos_eq_one_iff_of_lt_of_lt
          (by cases abs_lt.mp hxabs; linarith)
          (by cases abs_lt.mp hxabs; linarith)).mp hc))
        hrv hq3
    · intro hqe
      have hq2 : MulMatVec (RotationMat2 ((j : ℝ) * (arcAngle / (facets : ℝ))))
          (Sub start center) =
          MulMatVec (RotationMat2 arcAngle) (Sub start center) :=
        Add_left_cancel _ _ _ (hq ▸ hqe)
      have hq3 := congrArg
        (MulMatVec (RotationMat2 (-((j : ℝ) * (arcAngle / (facets : ℝ)))))) hq2
      rw [rot_comp, rot_comp, neg_add_cancel, rot_zero] at hq3
      have hq4 : MulMatVec (RotationMat2
          (arcAngle - (j : ℝ) * (arcAngle / (facets : ℝ))))
          (Sub start center) = Sub start center := by
        rw [show arcAngle - (j : ℝ) * (arcAngle / (facets : ℝ)) =
          -((j : ℝ) * (arcAngle / (facets : ℝ))) + arcAngle by ring]
        exact hq3.symm
      exact rot_fixed _ (Sub start center)
        (fun hc => hy0 ((Real.cos_eq_one_iff_of_lt_of_lt
          (by cases abs_lt.mp hyabs; linarith)
          (by cases abs_lt.mp hyabs; linarith)).mp hc))
        hrv hq4

/-- C1 witness: concrete instances — a sharp step appends 1 vertex, an
arc step with one facet appends 1 vertex, and the interior point of a
half-circle arc with 2 facets differs from both the start and the true
endpoint. -/
theorem vertex_count_amended_witness :
    (avStep ⟨0, 0⟩ ⟨⟨0, 0⟩, 0, 0⟩ ⟨⟨1, 2⟩, 0, 0⟩ []).1.length = 0 + 1 ∧
    (avStep ⟨0, 0⟩ ⟨⟨0, 0⟩, 0, 0⟩ ⟨⟨1, 0⟩, 1, -1⟩ []).1.length =
      0 + (-(-1 : ℤ)).toNat ∧
    ((⟨0, 1⟩ : Vec) ≠ ⟨1, 0⟩ ∧ (⟨0, 1⟩ : Vec) ≠
      Add ⟨0, 0⟩ (MulMatVec (RotationMat2 Real.pi) (Sub ⟨1, 0⟩ ⟨0, 0⟩))) := by
  have hpi := Real.pi_pos
  refine ⟨?_, ?_, ?_⟩
  · exact vertex_count_amended.2.1 ⟨0, 0⟩ ⟨⟨0, 0⟩, 0, 0⟩ ⟨⟨1, 2⟩, 0, 0⟩ []
      (fun h => by norm_num [isArc] at h)
      (fun h => by norm_num [isSmoothed] at h)
  · have harc1 : isArc (⟨⟨1, 0⟩, 1, -1⟩ : PolygonControlPoint) :=
      ⟨by norm_num, by norm_num⟩
    exact vertex_count_amended.2.2.1 ⟨0, 0⟩ ⟨⟨0, 0⟩, 0, 0⟩ ⟨⟨1, 0⟩, 1, -1⟩ []
      harc1
      (by rw [avStep, if_pos harc1]
          show (appendArc2points [] ⟨0, 0⟩ ⟨1, 0⟩ 1 (-(-1))).2 = none
          rw [appendArc2points, if_pos (by norm_num)])
  · exact vertex_count_amended.2.2.2 [] ⟨1, 0⟩ ⟨0, 0⟩ Real.pi 2
      (by norm_num)
      (fun h => by
        have := congrArg (fun w => w.X) h
        norm_num at this)
      Real.pi_ne_zero
      (by rw [abs_of_pos hpi]; linarith)
      ⟨0, 1⟩
      (by
        norm_num [appendArcWithCenter, arcPoints, Sub, MulMatVec,
          RotationMat2, Add, Real.cos_pi_div_two, Real.sin_pi_div_two])

/-! ## C9: regular-polygon round trip -/

/-- A successful step of the generator walk continues the loop with the
step buffer. -/
theorem avLoop_step_ok (verts : List PolygonControlPoint) (buf : List Vec)
    (prev : PolygonControlPoint) (i : ℕ) (h : i < verts.length)
    (hn : (i + 1) % verts.length < verts.length)
    (hnd : ¬(i ≠ 0 ∧ prev = verts.get ⟨i, h⟩)) (out : List Vec)
    (hstep : avStep (verts.get ⟨(i + 1) % verts.length, hn⟩).v prev
      (verts.get ⟨i, h⟩) buf = (out, none)) :
    avLoop verts buf prev i = avLoop verts out (verts.get ⟨i, h⟩) (i + 1) := by
  rw [avLoop, dif_pos h, if_neg hnd, hstep]

/-- With zero smoothing radius `nagonLoop` builds the list of rotated
sharp control points. -/
theorem nagonLoop_zero (m : Mat2) (f : ℤ) :
    ∀ (k : ℕ) (v : Vec), nagonLoop m v 0 f k =
      (List.range k).map
        (fun j => ⟨(fun w => MulMatVec m w)^[j] v, 0, 0⟩) := by
  intro k
  induction k with
  | zero => intro v; rfl
  | succ n ih =>
    intro v
    rw [nagonLoop, List.range_succ_eq_map, List.map_cons, List.map_map, ih]
    congr 1
    rw [Smooth, if_neg (by norm_num)]
    simp

/-- Any matrix sends the zero vector to the zero vector. -/
theorem MulMatVec_zero (m : Mat2) : MulMatVec m ⟨0, 0⟩ = (⟨0, 0⟩ : Vec) := by
  ext <;> simp [MulMatVec]

/-- C9 counterexample: `Nagon(3, 0)` places all three control points at the
origin; generation then fails with the duplicate control point error at
index 1 instead of succeeding with 3 vertices at distance 0. -/
theorem nagon_roundtrip_counterexample :
    (AppendVecs (Nagon [] 3 0) []).2 =
      some (AVError.cp 1 GeomErr.cpEqualToPrev) := by
  have hnag : Nagon ([] : List PolygonControlPoint) 3 0 =
      [⟨⟨0, 0⟩, 0, 0⟩, ⟨⟨0, 0⟩, 0, 0⟩, ⟨⟨0, 0⟩, 0, 0⟩] := by
    rw [Nagon, NagonSmoothed, if_neg (by norm_num), Reset, List.nil_append,
      nagonLoop_zero]
    rw [show (3 : ℤ).toNat = 3 from rfl]
    simp [List.range_succ, MulMatVec_zero]
  have hstep : avStep (⟨0, 0⟩ : Vec) ⟨⟨0, 0⟩, 0, 0⟩ ⟨⟨0, 0⟩, 0, 0⟩
      ([] : List Vec) = ([⟨0, 0⟩], none) := by
    rw [avStep, if_neg (fun hc => by norm_num [isArc] at hc),
      if_neg (fun hc => by norm_num [isSmoothed] at hc)]
    simp
  rw [hnag, AppendVecs, dif_neg (by norm_num)]
  show (avLoop [⟨⟨0, 0⟩, 0, 0⟩, ⟨⟨0, 0⟩, 0, 0⟩, ⟨⟨0, 0⟩, 0, 0⟩] []
    ⟨⟨0, 0⟩, 0, 0⟩ 0).2 = some (AVError.cp 1 GeomErr.cpEqualToPrev)
  rw [avLoop_step_ok
    [⟨⟨0, 0⟩, 0, 0⟩, ⟨⟨0, 0⟩, 0, 0⟩, ⟨⟨0, 0⟩, 0, 0⟩] [] _ 0
    (by norm_num) (by norm_num) (fun h => h.1 rfl) [⟨0, 0⟩] hstep]
  rw [avLoop, dif_pos (by norm_num), if_pos ⟨one_ne_zero, rfl⟩]

/-- C9 amended: for `n ≥ 3` and `d > 0`, `Nagon(n, d)` followed by
generation succeeds and appends exactly `n` vertices — the control point
positions in order — each at distance `d` from the origin. (For `d = 0` all
control points coincide and generation fails with the duplicate error —
see the counterexample — and for `d < 0` the vertex distance is `|d|`.) -/
theorem nagon_roundtrip_amended (verts : List PolygonControlPoint) (n : ℤ)
    (d : ℝ) (buf : List Vec) (hn : 3 ≤ n) (hd : 0 < d) :
    AppendVecs (Nagon verts n d) buf =
      (buf ++ (Nagon verts n d).map (fun cp => cp.v), none) ∧
    (Nagon verts n d).length = n.toNat ∧
    (∀ cp ∈ Nagon verts n d, Norm cp.v = d) := by
  set L := (List.range n.toNat).map
    (fun j => (⟨(fun w =>
      MulMatVec (RotationMat2 (2 * Real.pi / (n : ℝ))) w)^[j]
      ⟨d, 0⟩, 0, 0⟩ : PolygonControlPoint)) with hL
  have hnag : Nagon verts n d = L := by
    rw [Nagon, NagonSmoothed,
      if_neg (by intro h; rcases h with h | h; omega; exact h.1 rfl),
      Reset, List.nil_append, nagonLoop_zero, hL]
  have hiter : ∀ j : ℕ, Norm ((fun w =>
      MulMatVec (RotationMat2 (2 * Real.pi / (n : ℝ))) w)^[j]
      (⟨d, 0⟩ : Vec)) = d := by
    intro j
    induction j with
    | zero => simpa using Norm_axis d hd.le
    | succ k ihk =>
      rw [Function.iterate_succ_apply']
      exact (rot_norm _ _).trans ihk
  have hlenL : L.length = n.toNat := by
    rw [hL, List.length_map, List.length_range]
  have hnormL : ∀ cp ∈ L, Norm cp.v = d := by
    intro cp hcp
    rw [hL] at hcp
    simp only [List.mem_map, List.mem_range] at hcp
    obtain ⟨j, _, rfl⟩ := hcp
    exact hiter j
  have hsharpL : ∀ cp ∈ L, ¬isArc cp ∧ ¬isSmoothed cp := by
    intro cp hcp
    rw [hL] at hcp
    simp only [List.mem_map, List.mem_range] at hcp
    obtain ⟨j, _, rfl⟩ := hcp
    exact ⟨fun hc => by norm_num [isArc] at hc,
      fun hc => by norm_num [isSmoothed] at hc⟩
  have hcos : Real.cos (2 * Real.pi / (n : ℝ)) ≠ 1 := by
    intro hc
    have hnR : (3 : ℝ) ≤ (n : ℝ) := by exact_mod_cast hn
    have hpipos := Real.pi_pos
    have hpos : 0 < 2 * Real.pi / (n : ℝ) := by positivity
    have hlt : 2 * Real.pi / (n : ℝ) < 2 * Real.pi := by
      rw [div_lt_iff (by linarith)]
      nlinarith
    have := (Real.cos_eq_one_iff_of_lt_of_lt (by linarith) hlt).mp hc
    linarith
  have hgetq : ∀ jj : ℕ, jj < n.toNat → L.get? jj =
      some ⟨(fun w => MulMatVec (RotationMat2 (2 * Real.pi / (n : ℝ))) w)^[jj]
        ⟨d, 0⟩, 0, 0⟩ := by
    intro jj h2
    rw [hL, List.get?_map, List.get?_range h2]
    rfl
  have hneL : ∀ (j : ℕ) (hj : j < L.length) (hj1 : j - 1 < L.length),
      j ≠ 0 → L.get ⟨j - 1, hj1⟩ ≠ L.get ⟨j, hj⟩ := by
    intro j hj hj1 hj0 heq
    obtain ⟨k, rfl⟩ : ∃ k, j = k + 1 := ⟨j - 1, by omega⟩
    have hk1 : k < n.toNat := by
      rw [hlenL] at hj
      omega
    have hk2 : k + 1 < n.toNat := by
      rw [hlenL] at hj
      omega
    have e1 := List.get?_eq_get hj1
    have e2 := List.get?_eq_get hj
    rw [hgetq (k + 1 - 1) (by omega)] at e1
    rw [hgetq (k + 1) hk2] at e2
    have heq2 := (Option.some.inj e1).trans
      (heq.trans (Option.some.inj e2).symm)
    simp only [Nat.add_sub_cancel] at heq2
    have hv := congrArg (fun cp => cp.v) heq2
    simp only at hv
    rw [Function.iterate_succ_apply'] at hv
    have hzne : ¬(((fun w =>
        MulMatVec (RotationMat2 (2 * Real.pi / (n : ℝ))) w)^[k]
        (⟨d, 0⟩ : Vec)).X = 0 ∧
        ((fun w => MulMatVec (RotationMat2 (2 * Real.pi / (n : ℝ))) w)^[k]
        (⟨d, 0⟩ : Vec)).Y = 0) := by
      intro hzz
      have h0 : Norm ((fun w =>
          MulMatVec (RotationMat2 (2 * Real.pi / (n : ℝ))) w)^[k]
          (⟨d, 0⟩ : Vec)) = 0 := by
        rw [Norm, hzz.1, hzz.2]
        simp
      rw [hiter k] at h0
      linarith
    exact rot_fixed _ _ hcos hzne hv.symm
  refine ⟨?_, by rw [hnag]; exact hlenL, by rw [hnag]; exact hnormL⟩
  rw [hnag, AppendVecs, dif_neg (by rw [hlenL]; omega)]
  have hrun := avLoop_sharp L hsharpL hneL L.length 0 buf
    (L.get ⟨L.length - 1, by rw [hlenL]; omega⟩)
    (by omega) (fun h0 _ => absurd rfl h0)
  rw [List.drop_zero] at hrun
  exact hrun

/-- C9 amended witness: a concrete triangle at distance 1 generates exactly
3 vertices. -/
theorem nagon_roundtrip_amended_witness :
    (Nagon [] 3 1).length = (3 : ℤ).toNat :=
  (nagon_roundtrip_amended [] 3 1 [] (by norm_num) (by norm_num)).2.1

/-! ## C2: radius invariant -/

/-- `copysign u (-u*r)` flips the sign of `u` when `r > 0`. -/
theorem copysign_neg_mul (u r : ℝ) (hr : 0 < r) : copysign u (-u * r) = -u := by
  rw [copysign]
  rcases lt_trichotomy u 0 with h | h | h
  · rw [if_neg (by nlinarith), abs_of_neg h]
  · rw [h]
    simp
  · rw [if_pos (by nlinarith), abs_of_pos h]

/-- `copysign u (u*r)` keeps the sign of `u` when `r > 0`. -/
theorem copysign_pos_mul (u r : ℝ) (hr : 0 < r) : copysign u (u * r) = u := by
  rw [copysign]
  rcases lt_trichotomy u 0 with h | h | h
  · rw [if_pos (by nlinarith), abs_of_neg h]
    ring
  · rw [h]
    simp
  · rw [if_neg (by nlinarith), abs_of_pos h]

/-- The arc center computed by `arcCenterFrom2points` lies at distance
exactly `|r|` from both chord endpoints, in the real-number model, whenever
the chord is nonzero and spannable (`chordLen ≤ 2|r|`) and the half angle is
outside the `1e-6` nudge band. -/
theorem arcCenter_dist (p1 p2 : Vec) (r : ℝ) (center : Vec) (sweep : ℝ)
    (harc : arcCenterFrom2points p1 p2 r = Except.ok (center, sweep))
    (hr : r ≠ 0)
    (hcl0 : Norm (Sub p2 p1) ≠ 0)
    (hcl : Norm (Sub p2 p1) ≤ 2 * |r|)
    (hnn : Real.arcsin (Norm (Sub p2 p1) / (2 * |r|)) ≤ Real.pi / 2 - 1e-6) :
    Norm (Sub p1 center) = |r| ∧ Norm (Sub p2 center) = |r| := by
  have hr0 : 0 < |r| := abs_pos.mpr hr
  have hclnn : 0 ≤ Norm (Sub p2 p1) := Real.sqrt_nonneg _
  have hclpos : 0 < Norm (Sub p2 p1) := lt_of_le_of_ne hclnn (Ne.symm hcl0)
  have hguard : ¬(Norm (Sub p2 p1) - 2 * |r| > arcTol) := by
    intro hgt
    rw [arcTol] at hgt
    norm_num at hgt
    linarith
  rw [arcCenterFrom2points, if_neg hguard] at harc
  simp only [Except.ok.injEq, Prod.mk.injEq] at harc
  obtain ⟨hcen, hsw⟩ := harc
  subst hcen
  -- abbreviations
  set V := Sub p2 p1 with hV
  set cl := Norm V with hcldef
  set s := cl / (2 * |r|) with hs
  set h := Real.arcsin s with hhdef
  have hclsq : cl ^ 2 = V.X ^ 2 + V.Y ^ 2 := by
    rw [hcldef, Norm]
    exact Real.sq_sqrt (by positivity)
  have hspos : 0 < s := by
    rw [hs]
    positivity
  have hsle : s ≤ 1 := by
    rw [hs, div_le_one (by positivity)]
    exact hcl
  have hsin : Real.sin h = s := Real.sin_arcsin (by linarith) hsle
  have hh0 : 0 ≤ h := Real.arcsin_nonneg.mpr (le_of_lt hspos)
  have hcosh : 0 < Real.cos h :=
    Real.cos_pos_of_mem_Ioo
      ⟨by linarith [Real.pi_pos], by
        have : (0:ℝ) < 1e-6 := by norm_num
        linarith⟩
  have hnudge : halfAngleAdjusted cl |r| = h := by
    rw [halfAngleAdjusted, ← hs, ← hhdef, if_neg ?hc]
    case hc =>
      intro hlt
      rw [abs_of_nonpos (by linarith [Real.arcsin_le_pi_div_two s])] at hlt
      have : (0:ℝ) < 1e-6 := by norm_num
      linarith
  rw [hnudge] at hsw ⊢
  have hx : 0.5 * cl / Real.tan h = |r| * Real.cos h := by
    rw [Real.tan_eq_sin_div_cos, hsin, hs]
    field_simp
    ring
  rw [hx]
  have hVX : V.X = p2.X - p1.X := by rw [hV]; rfl
  have hVY : V.Y = p2.Y - p1.Y := by rw [hV]; rfl
  -- common distance computation for either sign of r
  have hcomp : ∀ pX pY : ℝ, pX ^ 2 = V.Y ^ 2 → pY ^ 2 = V.X ^ 2 →
      V.X * pX + V.Y * pY = 0 →
      Norm (Sub p1 (Add (Add p1 (Scale 0.5 V))
        (Scale (|r| * Real.cos h / cl) ⟨pX, pY⟩))) = |r| ∧
      Norm (Sub p2 (Add (Add p1 (Scale 0.5 V))
        (Scale (|r| * Real.cos h / cl) ⟨pX, pY⟩))) = |r| := by
    intro pX pY hpx hpy hdot
    have hkey : 0.25 * cl ^ 2 + (|r| * Real.cos h) ^ 2 = |r| ^ 2 := by
      have hcl2 : cl = 2 * |r| * s := by
        rw [hs]
        field_simp
      have hpyth := Real.sin_sq_add_cos_sq h
      rw [hsin] at hpyth
      rw [hcl2]
      linear_combination |r| ^ 2 * hpyth
    have ht2 : (|r| * Real.cos h / cl) ^ 2 * (V.Y ^ 2 + V.X ^ 2) =
        (|r| * Real.cos h) ^ 2 := by
      have : V.Y ^ 2 + V.X ^ 2 = cl ^ 2 := by linarith [hclsq]
      rw [this]
      field_simp
    constructor
    · have hXc : (Sub p1 (Add (Add p1 (Scale 0.5 V))
          (Scale (|r| * Real.cos h / cl) ⟨pX, pY⟩))).X =
          -(0.5 * V.X) - (|r| * Real.cos h / cl) * pX := by
        simp only [Sub, Add, Scale]
        ring
      have hYc : (Sub p1 (Add (Add p1 (Scale 0.5 V))
          (Scale (|r| * Real.cos h / cl) ⟨pX, pY⟩))).Y =
          -(0.5 * V.Y) - (|r| * Real.cos h / cl) * pY := by
        simp only [Sub, Add, Scale]
        ring
      have hsum : (Sub p1 (Add (Add p1 (Scale 0.5 V))
          (Scale (|r| * Real.cos h / cl) ⟨pX, pY⟩))).X ^ 2 +
          (Sub p1 (Add (Add p1 (Scale 0.5 V))
          (Scale (|r| * Real.cos h / cl) ⟨pX, pY⟩))).Y ^ 2 = |r| ^ 2 := by
        rw [hXc, hYc]
        have hexpand : (-(0.5 * V.X) - (|r| * Real.cos h / cl) * pX) ^ 2 +
            (-(0.5 * V.Y) - (|r| * Real.cos h / cl) * pY) ^ 2 =
            0.25 * (V.X ^ 2 + V.Y ^ 2) +
              (|r| * Real.cos h / cl) * (V.X * pX + V.Y * pY) +
              (|r| * Real.cos h / cl) ^ 2 * (pX ^ 2 + pY ^ 2) := by
          ring
        rw [hexpand, hdot, hpx, hpy, ht2,
          show V.X ^ 2 + V.Y ^ 2 = cl ^ 2 from hclsq.symm]
        linarith [hkey]
      rw [Norm, hsum, Real.sqrt_sq (abs_nonneg r)]
    · have hXc : (Sub p2 (Add (Add p1 (Scale 0.5 V))
          (Scale (|r| * Real.cos h / cl) ⟨pX, pY⟩))).X =
          0.5 * V.X - (|r| * Real.cos h / cl) * pX := by
        simp only [Sub, Add, Scale]
        rw [hVX]
        ring
      have hYc : (Sub p2 (Add (Add p1 (Scale 0.5 V))
          (Scale (|r| * Real.cos h / cl) ⟨pX, pY⟩))).Y =
          0.5 * V.Y - (|r| * Real.cos h / cl) * pY := by
        simp only [Sub, Add, Scale]
        rw [hVY]
        ring
      have hsum : (Sub p2 (Add (Add p1 (Scale 0.5 V))
          (Scale (|r| * Real.cos h / cl) ⟨pX, pY⟩))).X ^ 2 +
          (Sub p2 (Add (Add p1 (Scale 0.5 V))
          (Scale (|r| * Real.cos h / cl) ⟨pX, pY⟩))).Y ^ 2 = |r| ^ 2 := by
        rw [hXc, hYc]
        have hexpand : (0.5 * V.X - (|r| * Real.cos h / cl) * pX) ^ 2 +
            (0.5 * V.Y - (|r| * Real.cos h / cl) * pY) ^ 2 =
            0.25 * (V.X ^ 2 + V.Y ^ 2) -
              (|r| * Real.cos h / cl) * (V.X * pX + V.Y * pY) +
              (|r| * Real.cos h / cl) ^ 2 * (pX ^ 2 + pY ^ 2) := by
          ring
        rw [hexpand, hdot, hpx, hpy, ht2,
          show V.X ^ 2 + V.Y ^ 2 = cl ^ 2 from hclsq.symm]
        linarith [hkey]
      rw [Norm, hsum, Real.sqrt_sq (abs_nonneg r)]
  rcases hr.lt_or_lt with hneg | hpos
  · rw [show -V.Y * r = V.Y * (-r) by ring,
      copysign_pos_mul V.Y (-r) (by linarith),
      show V.X * r = -V.X * (-r) by ring,
      copysign_neg_mul V.X (-r) (by linarith)]
    exact hcomp V.Y (-V.X) (by ring) (by ring) (by ring)
  · rw [copysign_neg_mul V.Y r hpos, copysign_pos_mul V.X r hpos]
    exact hcomp (-V.Y) V.X (by ring) (by ring) (by ring)

/-- At an exact semicircle chord (`chordLen = 2|r|`) the kernel's `1e-6`
nudge moves the half angle to `π/2 + 1e-6`; the computed center then lies
at distance exactly `|r| / cos 1e-6` from both chord endpoints. -/
theorem arcCenter_dist_semicircle (p1 p2 : Vec) (r : ℝ) (center : Vec)
    (sweep : ℝ)
    (harc : arcCenterFrom2points p1 p2 r = Except.ok (center, sweep))
    (hr : r ≠ 0)
    (hsc : Norm (Sub p2 p1) = 2 * |r|) :
    Norm (Sub p1 center) = |r| / Real.cos 1e-6 ∧
    Norm (Sub p2 center) = |r| / Real.cos 1e-6 := by
  have hr0 : 0 < |r| := abs_pos.mpr hr
  have hguard : ¬(Norm (Sub p2 p1) - 2 * |r| > arcTol) := by
    rw [hsc, sub_self, arcTol]
    norm_num
  rw [arcCenterFrom2points, if_neg hguard] at harc
  simp only [Except.ok.injEq, Prod.mk.injEq] at harc
  obtain ⟨hcen, hsw⟩ := harc
  subst hcen
  set V := Sub p2 p1 with hV
  set cl := Norm V with hcldef
  have hclpos : 0 < cl := by rw [hsc]; linarith
  have hclsq : cl ^ 2 = V.X ^ 2 + V.Y ^ 2 := by
    rw [hcldef, Norm]
    exact Real.sq_sqrt (by positivity)
  have hs1 : cl / (2 * |r|) = 1 := by
    rw [hsc]
    exact div_self (ne_of_gt (by linarith))
  have hpi := Real.pi_pos
  have h2pi := Real.two_le_pi
  have hsin6 : 0 < Real.sin 1e-6 := by
    apply Real.sin_pos_of_pos_of_lt_pi (by norm_num)
    have h6 : (1e-6 : ℝ) = 1 / 1000000 := by norm_num
    rw [h6]
    linarith
  have hcos6 : 0 < Real.cos 1e-6 := by
    apply Real.cos_pos_of_mem_Ioo
    constructor
    · have h6 : (1e-6 : ℝ) = 1 / 1000000 := by norm_num
      rw [h6]
      linarith
    · have h6 : (1e-6 : ℝ) = 1 / 1000000 := by norm_num
      rw [h6]
      linarith
  have hnudge : halfAngleAdjusted cl |r| = Real.pi / 2 + 1e-6 := by
    rw [halfAngleAdjusted, hs1, Real.arcsin_one, sub_self, abs_zero,
      if_pos (by norm_num), neg_zero, copysign, if_neg (lt_irrefl (0 : ℝ)),
      abs_of_pos (by norm_num)]
  rw [hnudge]
  have hx : 0.5 * cl / Real.tan (Real.pi / 2 + 1e-6) =
      -(|r| * (Real.sin 1e-6 / Real.cos 1e-6)) := by
    have hcne : Real.cos 1e-6 ≠ 0 := ne_of_gt hcos6
    have hsne : Real.sin 1e-6 ≠ 0 := ne_of_gt hsin6
    rw [Real.tan_eq_sin_div_cos, add_comm (Real.pi / 2) (1e-6 : ℝ),
      Real.sin_add_pi_div_two, Real.cos_add_pi_div_two, hsc]
    rw [div_div_eq_mul_div]
    ring
  rw [hx]
  have hVX : V.X = p2.X - p1.X := by rw [hV]; rfl
  have hVY : V.Y = p2.Y - p1.Y := by rw [hV]; rfl
  have hcomp : ∀ pX pY : ℝ, pX ^ 2 = V.Y ^ 2 → pY ^ 2 = V.X ^ 2 →
      V.X * pX + V.Y * pY = 0 →
      Norm (Sub p1 (Add (Add p1 (Scale 0.5 V))
        (Scale (-(|r| * (Real.sin 1e-6 / Real.cos 1e-6)) / cl) ⟨pX, pY⟩))) =
        |r| / Real.cos 1e-6 ∧
      Norm (Sub p2 (Add (Add p1 (Scale 0.5 V))
        (Scale (-(|r| * (Real.sin 1e-6 / Real.cos 1e-6)) / cl) ⟨pX, pY⟩))) =
        |r| / Real.cos 1e-6 := by
    intro pX pY hpx hpy hdot
    have hcne : Real.cos 1e-6 ≠ 0 := ne_of_gt hcos6
    have hclne : cl ≠ 0 := ne_of_gt hclpos
    have hkey : 0.25 * cl ^ 2 +
        (|r| * (Real.sin 1e-6 / Real.cos 1e-6)) ^ 2 =
        (|r| / Real.cos 1e-6) ^ 2 := by
      have hpyth := Real.sin_sq_add_cos_sq (1e-6 : ℝ)
      rw [hsc]
      field_simp
      linear_combination |r| ^ 2 * hpyth + sq_abs r
    have ht2 : (-(|r| * (Real.sin 1e-6 / Real.cos 1e-6)) / cl) ^ 2 *
        (V.Y ^ 2 + V.X ^ 2) =
        (|r| * (Real.sin 1e-6 / Real.cos 1e-6)) ^ 2 := by
      have hvc : V.Y ^ 2 + V.X ^ 2 = cl ^ 2 := by linarith [hclsq]
      rw [hvc]
      field_simp
      ring
    constructor
    · have hXc : (Sub p1 (Add (Add p1 (Scale 0.5 V))
          (Scale (-(|r| * (Real.sin 1e-6 / Real.cos 1e-6)) / cl)
            ⟨pX, pY⟩))).X =
          -(0.5 * V.X) - (-(|r| * (Real.sin 1e-6 / Real.cos 1e-6)) / cl) *
            pX := by
        simp only [Sub, Add, Scale]
        ring
      have hYc : (Sub p1 (Add (Add p1 (Scale 0.5 V))
          (Scale (-(|r| * (Real.sin 1e-6 / Real.cos 1e-6)) / cl)
            ⟨pX, pY⟩))).Y =
          -(0.5 * V.Y) - (-(|r| * (Real.sin 1e-6 / Real.cos 1e-6)) / cl) *
            pY := by
        simp only [Sub, Add, Scale]
        ring
      have hsum : (Sub p1 (Add (Add p1 (Scale 0.5 V))
          (Scale (-(|r| * (Real.sin 1e-6 / Real.cos 1e-6)) / cl)
            ⟨pX, pY⟩))).X ^ 2 +
          (Sub p1 (Add (Add p1 (Scale 0.5 V))
          (Scale (-(|r| * (Real.sin 1e-6 / Real.cos 1e-6)) / cl)
            ⟨pX, pY⟩))).Y ^ 2 = (|r| / Real.cos 1e-6) ^ 2 := by
        rw [hXc, hYc]
        have hexpand : (-(0.5 * V.X) -
            (-(|r| * (Real.sin 1e-6 / Real.cos 1e-6)) / cl) * pX) ^ 2 +
            (-(0.5 * V.Y) -
            (-(|r| * (Real.sin 1e-6 / Real.cos 1e-6)) / cl) * pY) ^ 2 =
            0.25 * (V.X ^ 2 + V.Y ^ 2) +
              (-(|r| * (Real.sin 1e-6 / Real.cos 1e-6)) / cl) *
                (V.X * pX + V.Y * pY) +
              (-(|r| * (Real.sin 1e-6 / Real.cos 1e-6)) / cl) ^ 2 *
                (pX ^ 2 + pY ^ 2) := by
          ring
        rw [hexpand, hdot, hpx, hpy, ht2,
          show V.X ^ 2 + V.Y ^ 2 = cl ^ 2 from hclsq.symm]
        linarith [hkey]
      rw [Norm, hsum, Real.sqrt_sq (div_nonneg (abs_nonneg r) hcos6.le)]
    · have hXc : (Sub p2 (Add (Add p1 (Scale 0.5 V))
          (Scale (-(|r| * (Real.sin 1e-6 / Real.cos 1e-6)) / cl)
            ⟨pX, pY⟩))).X =
          0.5 * V.X - (-(|r| * (Real.sin 1e-6 / Real.cos 1e-6)) / cl) *
            pX := by
        simp only [Sub, Add, Scale]
        rw [hVX]
        ring
      have hYc : (Sub p2 (Add (Add p1 (Scale 0.5 V))
          (Scale (-(|r| * (Real.sin 1e-6 / Real.cos 1e-6)) / cl)
            ⟨pX, pY⟩))).Y =
          0.5 * V.Y - (-(|r| * (Real.sin 1e-6 / Real.cos 1e-6)) / cl) *
            pY := by
        simp only [Sub, Add, Scale]
        rw [hVY]
        ring
      have hsum : (Sub p2 (Add (Add p1 (Scale 0.5 V))
          (Scale (-(|r| * (Real.sin 1e-6 / Real.cos 1e-6)) / cl)
            ⟨pX, pY⟩))).X ^ 2 +
          (Sub p2 (Add (Add p1 (Scale 0.5 V))
          (Scale (-(|r| * (Real.sin 1e-6 / Real.cos 1e-6)) / cl)
            ⟨pX, pY⟩))).Y ^ 2 = (|r| / Real.cos 1e-6) ^ 2 := by
        rw [hXc, hYc]
        have hexpand : (0.5 * V.X -
            (-(|r| * (Real.sin 1e-6 / Real.cos 1e-6)) / cl) * pX) ^ 2 +
            (0.5 * V.Y -
            (-(|r| * (Real.sin 1e-6 / Real.cos 1e-6)) / cl) * pY) ^ 2 =
            0.25 * (V.X ^ 2 + V.Y ^ 2) -
              (-(|r| * (Real.sin 1e-6 / Real.cos 1e-6)) / cl) *
                (V.X * pX + V.Y * pY) +
              (-(|r| * (Real.sin 1e-6 / Real.cos 1e-6)) / cl) ^ 2 *
                (pX ^ 2 + pY ^ 2) := by
          ring
        rw [hexpand, hdot, hpx, hpy, ht2,
          show V.X ^ 2 + V.Y ^ 2 = cl ^ 2 from hclsq.symm]
        linarith [hkey]
      rw [Norm, hsum, Real.sqrt_sq (div_nonneg (abs_nonneg r) hcos6.le)]
  rcases hr.lt_or_lt with hneg | hpos
  · rw [show -V.Y * r = V.Y * (-r) by ring,
      copysign_pos_mul V.Y (-r) (by linarith),
      show V.X * r = -V.X * (-r) by ring,
      copysign_neg_mul V.X (-r) (by linarith)]
    exact hcomp V.Y (-V.X) (by ring) (by ring) (by ring)
  · rw [copysign_neg_mul V.Y r hpos, copysign_pos_mul V.X r hpos]
    exact hcomp (-V.Y) V.X (by ring) (by ring) (by ring)


/-- The two fillet tangent points lie at distance exactly `r` from the
fillet arc center, under the guards enforced by `appendSmoothedCorner`. -/
theorem cornerTangentDist (p0 p1 p2 : Vec) (r : ℝ)
    (h10 : Norm (Sub p0 p1) ≠ 0) (h12 : Norm (Sub p2 p1) ≠ 0)
    (hg3 : ¬(|cornerTheta p0 p1 p2| < arcTol))
    (hg4 : ¬(|cornerTheta p0 p1 p2 - Real.pi| < arcTol))
    (hr : 0 < r) :
    Norm (Sub (cornerStart p0 p1 p2 r) (cornerArcCenter p0 p1 p2 r)) = r ∧
    Norm (Sub (cornerEnd p0 p1 p2 r) (cornerArcCenter p0 p1 p2 r)) = r := by
  have hn10sq : Norm (Sub p0 p1) ^ 2 = (Sub p0 p1).X ^ 2 + (Sub p0 p1).Y ^ 2 := by
    rw [Norm]
    exact Real.sq_sqrt (by positivity)
  have hn12sq : Norm (Sub p2 p1) ^ 2 = (Sub p2 p1).X ^ 2 + (Sub p2 p1).Y ^ 2 := by
    rw [Norm]
    exact Real.sq_sqrt (by positivity)
  set θ := cornerTheta p0 p1 p2 with hθdef
  have hθeq : θ = Real.arccos (Dot (cornerUnitTo p0 p1) (cornerUnitTo p2 p1)) := by
    rw [hθdef, cornerTheta]
  set u1 := cornerUnitTo p0 p1 with hu1def
  set u2 := cornerUnitTo p2 p1 with hu2def
  set c := Dot u1 u2 with hcdef
  have hu1sq : u1.X ^ 2 + u1.Y ^ 2 = 1 := by
    rw [hu1def, cornerUnitTo]
    simp only [Scale]
    field_simp
    linarith [hn10sq]
  have hu2sq : u2.X ^ 2 + u2.Y ^ 2 = 1 := by
    rw [hu2def, cornerUnitTo]
    simp only [Scale]
    field_simp
    linarith [hn12sq]
  have hc : c = u1.X * u2.X + u1.Y * u2.Y := by rw [hcdef, Dot]
  have hc2 : c ^ 2 ≤ 1 := by
    have hlag : c ^ 2 + (u1.X * u2.Y - u1.Y * u2.X) ^ 2 =
        (u1.X ^ 2 + u1.Y ^ 2) * (u2.X ^ 2 + u2.Y ^ 2) := by
      rw [hc]
      ring
    rw [hu1sq, hu2sq] at hlag
    nlinarith [sq_nonneg (u1.X * u2.Y - u1.Y * u2.X)]
  have hcge : -1 ≤ c := by nlinarith [hc2]
  have hcle : c ≤ 1 := by nlinarith [hc2]
  have hcosθ : Real.cos θ = c := by
    rw [hθeq, hcdef]
    exact Real.cos_arccos (hcdef ▸ hcge) (hcdef ▸ hcle)
  have hθ0 : 0 ≤ θ := by
    rw [hθeq]
    exact Real.arccos_nonneg _
  have hθπ : θ ≤ Real.pi := by
    rw [hθeq]
    exact Real.arccos_le_pi _
  have harcTolpos : (0 : ℝ) < arcTol := by rw [arcTol]; norm_num
  have hθlo : arcTol ≤ θ := by
    have h5 := not_lt.mp hg3
    rwa [abs_of_nonneg hθ0] at h5
  have hθhi : θ ≤ Real.pi - arcTol := by
    have h5 := not_lt.mp hg4
    rw [abs_of_nonpos (by linarith)] at h5
    linarith
  set sint := Real.sin (0.5 * θ) with hsintdef
  set cost := Real.cos (0.5 * θ) with hcostdef
  have hsintpos : 0 < sint := by
    rw [hsintdef]
    exact Real.sin_pos_of_pos_of_lt_pi (by linarith) (by linarith [Real.pi_pos])
  have hcostpos : 0 < cost := by
    rw [hcostdef]
    exact Real.cos_pos_of_mem_Ioo ⟨by linarith [Real.pi_pos], by linarith⟩
  have hpyth : sint ^ 2 + cost ^ 2 = 1 := by
    rw [hsintdef, hcostdef]
    exact Real.sin_sq_add_cos_sq _
  have h1c : 1 + c = 2 * cost ^ 2 := by
    have hcos2 : Real.cos (2 * (0.5 * θ)) = 2 * Real.cos (0.5 * θ) ^ 2 - 1 :=
      Real.cos_two_mul _
    rw [show 2 * (0.5 * θ) = θ by ring, hcosθ, ← hcostdef] at hcos2
    linarith
  clear_value θ c sint cost
  have hwsq : (Add u1 u2).X ^ 2 + (Add u1 u2).Y ^ 2 = 2 + 2 * c := by
    simp only [Add]
    linear_combination hu1sq + hu2sq - 2 * hc
  have hw0 : ¬((Add u1 u2).X = 0 ∧ (Add u1 u2).Y = 0) := by
    intro hz
    rw [hz.1, hz.2] at hwsq
    have hcsq : 0 < cost ^ 2 := pow_pos hcostpos 2
    linarith [hwsq, h1c, hcsq]
  have hNw : Norm (Add u1 u2) = 2 * cost := by
    rw [Norm]
    have hsq : (Add u1 u2).X ^ 2 + (Add u1 u2).Y ^ 2 = (2 * cost) ^ 2 := by
      rw [hwsq]
      linear_combination 2 * h1c
    rw [hsq, Real.sqrt_sq (by linarith)]
  have hUnit : Unit (Add u1 u2) = Scale (1 / (2 * cost)) (Add u1 u2) := by
    rw [Unit, if_neg hw0, hNw]
  have hdot1 : u1.X * (Add u1 u2).X + u1.Y * (Add u1 u2).Y = 1 + c := by
    simp only [Add]
    linear_combination hu1sq - hc
  have hdot2 : u2.X * (Add u1 u2).X + u2.Y * (Add u1 u2).Y = 1 + c := by
    simp only [Add]
    linear_combination hu2sq - hc
  have hcore : ∀ u : Vec, u.X ^ 2 + u.Y ^ 2 = 1 →
      u.X * (Add u1 u2).X + u.Y * (Add u1 u2).Y = 1 + c →
      Norm (Sub (Add p1 (Scale (r / (sint / cost)) u))
        (Add p1 (Scale (r / sint)
          (Scale (1 / (2 * cost)) (Add u1 u2))))) = r := by
    intro u husq hudot
    have hXc : (Sub (Add p1 (Scale (r / (sint / cost)) u))
        (Add p1 (Scale (r / sint)
          (Scale (1 / (2 * cost)) (Add u1 u2))))).X =
        (r / (sint / cost)) * u.X -
          (r / sint) * (1 / (2 * cost)) * (Add u1 u2).X := by
      simp only [Sub, Add, Scale]
      ring
    have hYc : (Sub (Add p1 (Scale (r / (sint / cost)) u))
        (Add p1 (Scale (r / sint)
          (Scale (1 / (2 * cost)) (Add u1 u2))))).Y =
        (r / (sint / cost)) * u.Y -
          (r / sint) * (1 / (2 * cost)) * (Add u1 u2).Y := by
      simp only [Sub, Add, Scale]
      ring
    have hsum : (Sub (Add p1 (Scale (r / (sint / cost)) u))
        (Add p1 (Scale (r / sint)
          (Scale (1 / (2 * cost)) (Add u1 u2))))).X ^ 2 +
        (Sub (Add p1 (Scale (r / (sint / cost)) u))
        (Add p1 (Scale (r / sint)
          (Scale (1 / (2 * cost)) (Add u1 u2))))).Y ^ 2 = r ^ 2 := by
      rw [hXc, hYc]
      have hexpand : ((r / (sint / cost)) * u.X -
          (r / sint) * (1 / (2 * cost)) * (Add u1 u2).X) ^ 2 +
          ((r / (sint / cost)) * u.Y -
          (r / sint) * (1 / (2 * cost)) * (Add u1 u2).Y) ^ 2 =
          (r / (sint / cost)) ^ 2 * (u.X ^ 2 + u.Y ^ 2) -
            2 * (r / (sint / cost)) * ((r / sint) * (1 / (2 * cost))) *
              (u.X * (Add u1 u2).X + u.Y * (Add u1 u2).Y) +
            ((r / sint) * (1 / (2 * cost))) ^ 2 *
              ((Add u1 u2).X ^ 2 + (Add u1 u2).Y ^ 2) := by
        ring
      rw [hexpand, husq, hudot, hwsq, h1c,
        show (2 : ℝ) + 2 * c = 4 * cost ^ 2 by linarith]
      have hsne : sint ≠ 0 := ne_of_gt hsintpos
      have hcne : cost ≠ 0 := ne_of_gt hcostpos
      have halg : (r / (sint / cost)) ^ 2 * 1 -
          2 * (r / (sint / cost)) * ((r / sint) * (1 / (2 * cost))) *
            (2 * cost ^ 2) +
          ((r / sint) * (1 / (2 * cost))) ^ 2 * (4 * cost ^ 2) =
          r ^ 2 * (1 - cost ^ 2) / sint ^ 2 := by
        field_simp
        ring
      rw [halg, show 1 - cost ^ 2 = sint ^ 2 by linarith [hpyth],
        mul_div_assoc, div_self (pow_ne_zero _ hsne), mul_one]
    rw [Norm, hsum, Real.sqrt_sq (le_of_lt hr)]
  constructor
  · rw [cornerStart, cornerArcCenter, cornerD, ← hθdef, ← hsintdef,
      ← hcostdef, ← hu1def, ← hu2def, hUnit]
    exact hcore u1 hu1sq hdot1
  · rw [cornerEnd, cornerArcCenter, cornerD, ← hθdef, ← hsintdef,
      ← hcostdef, ← hu1def, ← hu2def, hUnit]
    exact hcore u2 hu2sq hdot2

/-- Every point emitted by a successful fillet kernel invocation with
`facets ≥ 2` and positive radius lies at distance exactly `r` from the
fillet arc center, in the real-number model. -/
theorem corner_dist (p0 p1 p2 : Vec) (r : ℝ) (facets : ℤ) (dst out : List Vec)
    (hsucc : appendSmoothedCorner dst p0 p1 p2 r facets = (out, none))
    (hf : 2 ≤ facets) (hr : 0 < r) :
    ∀ q ∈ out.drop dst.length,
      Norm (Sub q (cornerArcCenter p0 p1 p2 r)) = r := by
  rw [appendSmoothedCorner, if_neg (by omega)] at hsucc
  by_cases hg1 : r - Norm (Sub p0 p1) > arcTol ∨ r - Norm (Sub p2 p1) > arcTol
  · rw [if_pos hg1] at hsucc
    exact absurd (congrArg Prod.snd hsucc) (by simp)
  rw [if_neg hg1] at hsucc
  by_cases hg2 : Norm (Sub p0 p1) = 0 ∨ Norm (Sub p2 p1) = 0
  · rw [if_pos hg2] at hsucc
    exact absurd (congrArg Prod.snd hsucc) (by simp)
  rw [if_neg hg2] at hsucc
  push_neg at hg2
  by_cases hg3 : |cornerTheta p0 p1 p2| < arcTol
  · rw [if_pos hg3] at hsucc
    exact absurd (congrArg Prod.snd hsucc) (by simp)
  rw [if_neg hg3] at hsucc
  by_cases hg4 : |cornerTheta p0 p1 p2 - Real.pi| < arcTol
  · rw [if_pos hg4] at hsucc
    exact absurd (congrArg Prod.snd hsucc) (by simp)
  rw [if_neg hg4, Prod.mk.injEq] at hsucc
  have hout := hsucc.1.symm
  have htang := cornerTangentDist p0 p1 p2 r hg2.1 hg2.2 hg3 hg4 hr
  have hdarc : ∀ q ∈ arcPoints
      (RotationMat2 (cornerArcAngle p0 p1 p2 r / (facets : ℝ)))
      (cornerArcCenter p0 p1 p2 r)
      (Sub (cornerStart p0 p1 p2 r) (cornerArcCenter p0 p1 p2 r))
      ((facets - 1).toNat),
      Norm (Sub q (cornerArcCenter p0 p1 p2 r)) = r := by
    intro q hq
    rw [arcPoints_norm _ _ _ _ q hq, htang.1]
  have hTcase : ∃ T : List Vec, out = dst ++ T ∧ ∀ x ∈ T,
      x = cornerStart p0 p1 p2 r ∨
      x ∈ arcPoints
        (RotationMat2 (cornerArcAngle p0 p1 p2 r / (facets : ℝ)))
        (cornerArcCenter p0 p1 p2 r)
        (Sub (cornerStart p0 p1 p2 r) (cornerArcCenter p0 p1 p2 r))
        ((facets - 1).toNat) ∨
      x = cornerEnd p0 p1 p2 r := by
    rw [hout, appendArcWithCenter]
    by_cases hc1 : ¬EqualElem p0 (cornerStart p0 p1 p2 r)
        (arcTol * Norm (Sub p0 p1))
    · rw [if_pos hc1]
      by_cases hc2 : ¬EqualElem p2 (cornerEnd p0 p1 p2 r)
          (arcTol * Norm (Sub p2 p1))
      · rw [if_pos hc2]
        refine ⟨[cornerStart p0 p1 p2 r] ++
          (arcPoints (RotationMat2 (cornerArcAngle p0 p1 p2 r / (facets : ℝ)))
            (cornerArcCenter p0 p1 p2 r)
            (Sub (cornerStart p0 p1 p2 r) (cornerArcCenter p0 p1 p2 r))
            ((facets - 1).toNat) ++ [cornerEnd p0 p1 p2 r]),
          by simp only [List.append_assoc], ?_⟩
        intro x hx
        simp only [List.mem_append, List.mem_singleton] at hx
        tauto
      · rw [if_neg hc2]
        refine ⟨[cornerStart p0 p1 p2 r] ++
          arcPoints (RotationMat2 (cornerArcAngle p0 p1 p2 r / (facets : ℝ)))
            (cornerArcCenter p0 p1 p2 r)
            (Sub (cornerStart p0 p1 p2 r) (cornerArcCenter p0 p1 p2 r))
            ((facets - 1).toNat),
          by simp only [List.append_assoc], ?_⟩
        intro x hx
        simp only [List.mem_append, List.mem_singleton] at hx
        tauto
    · rw [if_neg hc1]
      by_cases hc2 : ¬EqualElem p2 (cornerEnd p0 p1 p2 r)
          (arcTol * Norm (Sub p2 p1))
      · rw [if_pos hc2]
        refine ⟨arcPoints (RotationMat2 (cornerArcAngle p0 p1 p2 r / (facets : ℝ)))
            (cornerArcCenter p0 p1 p2 r)
            (Sub (cornerStart p0 p1 p2 r) (cornerArcCenter p0 p1 p2 r))
            ((facets - 1).toNat) ++ [cornerEnd p0 p1 p2 r],
          by simp only [List.append_assoc], ?_⟩
        intro x hx
        simp only [List.mem_append, List.mem_singleton] at hx
        tauto
      · rw [if_neg hc2]
        refine ⟨arcPoints (RotationMat2 (cornerArcAngle p0 p1 p2 r / (facets : ℝ)))
            (cornerArcCenter p0 p1 p2 r)
            (Sub (cornerStart p0 p1 p2 r) (cornerArcCenter p0 p1 p2 r))
            ((facets - 1).toNat), rfl, ?_⟩
        intro x hx
        tauto
  intro q hq
  obtain ⟨T, hTeq, hTmem⟩ := hTcase
  rw [hTeq, List.drop_left] at hq
  rcases hTmem q hq with h | h | h
  · rw [h]
    exact htang.1
  · exact hdarc q h
  · rw [h]
    exact htang.2

/-- C2 counterexample: chord length `12/5` with radius `1` lies in the
silent out-of-range band `2|r| < chordLen ≤ 2|r| + arcTol`: the kernel
returns no error (and the generator then emits points), yet the single
interior point produced with two facets and the explicitly appended
endpoint both lie at distance at least `6/5` from the returned center —
at least `1/5` away from `|r| = 1`, far outside the claimed `1e-4`.
(In Go these points are NaN, since `Asin` of an argument above 1 is NaN;
in the real model `arcsin` clamps and the center lands essentially at the
chord midpoint. Either way the claimed invariant fails.) -/
theorem radius_invariant_counterexample :
    ∃ center sweep q,
      arcCenterFrom2points ⟨0, 0⟩ ⟨12 / 5, 0⟩ 1 = Except.ok (center, sweep) ∧
      appendArc2points [] ⟨0, 0⟩ ⟨12 / 5, 0⟩ 1 2 =
        (appendArcWithCenter [] ⟨0, 0⟩ center sweep 2, none) ∧
      q ∈ appendArcWithCenter [] ⟨0, 0⟩ center sweep 2 ∧
      ¬(abs (Norm (Sub q center) - |(1 : ℝ)|) ≤ 1e-4) ∧
      ¬(abs (Norm (Sub ⟨12 / 5, 0⟩ center) - |(1 : ℝ)|) ≤ 1e-4) := by
  have hsub : Sub (⟨12 / 5, 0⟩ : Vec) ⟨0, 0⟩ = ⟨12 / 5, 0⟩ := by
    ext <;> simp [Sub]
  have hcl : Norm (Sub (⟨12 / 5, 0⟩ : Vec) ⟨0, 0⟩) = 12 / 5 := by
    rw [hsub]
    exact Norm_axis _ (by norm_num)
  have hguard : ¬(Norm (Sub (⟨12 / 5, 0⟩ : Vec) ⟨0, 0⟩) - 2 * |(1 : ℝ)| >
      arcTol) := by
    rw [hcl, abs_one, arcTol]
    norm_num
  rcases hcase : arcCenterFrom2points ⟨0, 0⟩ ⟨12 / 5, 0⟩ 1 with e | pair
  · exfalso
    rw [arcCenterFrom2points, if_neg hguard] at hcase
    exact absurd hcase (by simp)
  cases pair with
  | mk center sweep =>
    have hcase2 := hcase
    rw [arcCenterFrom2points, if_neg hguard] at hcase2
    simp only [Except.ok.injEq, Prod.mk.injEq] at hcase2
    obtain ⟨hcen, hsw⟩ := hcase2
    have hX : center.X = 6 / 5 := by
      rw [← hcen]
      simp only [Add, Scale, Sub, copysign]
      norm_num
    have hviol : ∀ w : Vec, w.X ^ 2 = ((6 : ℝ) / 5) ^ 2 →
        ¬(abs (Norm w - |(1 : ℝ)|) ≤ 1e-4) := by
      intro w hw hcon
      have hge : (6 : ℝ) / 5 ≤ Norm w := by
        rw [Norm]
        calc (6 : ℝ) / 5 = Real.sqrt (((6 : ℝ) / 5) ^ 2) :=
              (Real.sqrt_sq (by norm_num)).symm
          _ ≤ _ := Real.sqrt_le_sqrt (by linarith [sq_nonneg w.Y, hw])
      rw [abs_one] at hcon
      have h2 := (abs_le.mp hcon).2
      have hlt : (1e-4 : ℝ) < 1 / 5 := by norm_num
      linarith
    have hwe : (Sub (⟨12 / 5, 0⟩ : Vec) center).X ^ 2 =
        ((6 : ℝ) / 5) ^ 2 := by
      simp only [Sub]
      rw [hX]
      norm_num
    have hwi : (Sub (⟨0, 0⟩ : Vec) center).X ^ 2 = ((6 : ℝ) / 5) ^ 2 := by
      simp only [Sub]
      rw [hX]
      norm_num
    have hlist : appendArcWithCenter [] ⟨0, 0⟩ center sweep 2 =
        [Add center (MulMatVec (RotationMat2 (sweep / ((2 : ℤ) : ℝ)))
          (Sub ⟨0, 0⟩ center))] := rfl
    have happ : appendArc2points [] ⟨0, 0⟩ ⟨12 / 5, 0⟩ 1 2 =
        (appendArcWithCenter [] ⟨0, 0⟩ center sweep 2, none) := by
      rw [appendArc2points, if_neg (by norm_num : ¬(2 : ℤ) ≤ 1), hcase]
    have hqn : Norm (Sub (Add center (MulMatVec (RotationMat2
        (sweep / ((2 : ℤ) : ℝ))) (Sub ⟨0, 0⟩ center))) center) =
        Norm (Sub (⟨0, 0⟩ : Vec) center) := by
      have hs : Sub (Add center (MulMatVec (RotationMat2
          (sweep / ((2 : ℤ) : ℝ))) (Sub ⟨0, 0⟩ center))) center =
          MulMatVec (RotationMat2 (sweep / ((2 : ℤ) : ℝ)))
            (Sub ⟨0, 0⟩ center) := by
        ext <;> simp [Sub, Add]
      rw [hs, rot_norm]
    refine ⟨center, sweep,
      Add center (MulMatVec (RotationMat2 (sweep / ((2 : ℤ) : ℝ)))
        (Sub ⟨0, 0⟩ center)), rfl, happ, ?_, ?_, ?_⟩
    · rw [hlist]
      exact List.mem_singleton_self _
    · rw [hqn]
      exact hviol _ hwi
    · exact hviol _ hwe

/-- C2, amended: radius invariant for nondegenerate chords. The original
universal claim fails in the silent band `2|r| < chordLen ≤ 2|r| + arcTol`
(see the counterexample), so the invariant is stated for the remaining
chords. First conjunct (arc-mode edge, short chord): when the kernel
succeeds on a nonzero chord with `chordLen ≤ 2|r|` and a half angle below
the `1e-6` nudge band, every interior point the arc generator appends, and
the explicit endpoint `p2`, lie within `1e-4` of distance `|r|` from the
returned center (in the real model the distance is exact). Second conjunct
(fillet corner): every point emitted by a successful fillet invocation with
`facets ≥ 2`, `r > 0` lies within `1e-4` of distance `|r| = r` from the
fillet arc center. Third conjunct: the arc property is unchanged when both
chord points are translated by an arbitrary common offset `t`, with the
hypotheses still stated on the untranslated points. Fourth conjunct (exact
semicircle, `chordLen = 2|r|`, the nudge band): for `|r| ≤ 1000` the
nudged half angle `π/2 + 1e-6` places every emitted point and the endpoint
at distance `|r| / cos 1e-6` from the center, within `1e-4` of `|r|`. -/
theorem radius_invariant :
    (∀ (p1 p2 : Vec) (r : ℝ) (center : Vec) (sweep : ℝ) (dst : List Vec)
      (facets : ℤ),
      arcCenterFrom2points p1 p2 r = Except.ok (center, sweep) →
      r ≠ 0 → Norm (Sub p2 p1) ≠ 0 → Norm (Sub p2 p1) ≤ 2 * |r| →
      Real.arcsin (Norm (Sub p2 p1) / (2 * |r|)) ≤ Real.pi / 2 - 1e-6 →
      (∀ q ∈ (appendArcWithCenter dst p1 center sweep facets).drop dst.length,
        abs (Norm (Sub q center) - |r|) ≤ 1e-4) ∧
      abs (Norm (Sub p2 center) - |r|) ≤ 1e-4) ∧
    (∀ (p0 p1 p2 : Vec) (r : ℝ) (facets : ℤ) (dst out : List Vec),
      appendSmoothedCorner dst p0 p1 p2 r facets = (out, none) →
      2 ≤ facets → 0 < r →
      ∀ q ∈ out.drop dst.length,
        abs (Norm (Sub q (cornerArcCenter p0 p1 p2 r)) - |r|) ≤ 1e-4) ∧
    (∀ (t p1 p2 : Vec) (r : ℝ) (center : Vec) (sweep : ℝ) (dst : List Vec)
      (facets : ℤ),
      arcCenterFrom2points (Add p1 t) (Add p2 t) r = Except.ok (center, sweep) →
      r ≠ 0 → Norm (Sub p2 p1) ≠ 0 → Norm (Sub p2 p1) ≤ 2 * |r| →
      Real.arcsin (Norm (Sub p2 p1) / (2 * |r|)) ≤ Real.pi / 2 - 1e-6 →
      ∀ q ∈ (appendArcWithCenter dst (Add p1 t) center sweep facets).drop
        dst.length,
        abs (Norm (Sub q center) - |r|) ≤ 1e-4) ∧
    (∀ (p1 p2 : Vec) (r : ℝ) (center : Vec) (sweep : ℝ) (dst : List Vec)
      (facets : ℤ),
      arcCenterFrom2points p1 p2 r = Except.ok (center, sweep) →
      r ≠ 0 → |r| ≤ 1000 → Norm (Sub p2 p1) = 2 * |r| →
      (∀ q ∈ (appendArcWithCenter dst p1 center sweep facets).drop dst.length,
        abs (Norm (Sub q center) - |r|) ≤ 1e-4) ∧
      abs (Norm (Sub p2 center) - |r|) ≤ 1e-4) := by
  have partA : ∀ (p1 p2 : Vec) (r : ℝ) (center : Vec) (sweep : ℝ)
      (dst : List Vec) (facets : ℤ),
      arcCenterFrom2points p1 p2 r = Except.ok (center, sweep) →
      r ≠ 0 → Norm (Sub p2 p1) ≠ 0 → Norm (Sub p2 p1) ≤ 2 * |r| →
      Real.arcsin (Norm (Sub p2 p1) / (2 * |r|)) ≤ Real.pi / 2 - 1e-6 →
      (∀ q ∈ (appendArcWithCenter dst p1 center sweep facets).drop dst.length,
        abs (Norm (Sub q center) - |r|) ≤ 1e-4) ∧
      abs (Norm (Sub p2 center) - |r|) ≤ 1e-4 := by
    intro p1 p2 r center sweep dst facets harc hr hcl0 hcl hnn
    have hdist := arcCenter_dist p1 p2 r center sweep harc hr hcl0 hcl hnn
    constructor
    · intro q hq
      simp only [appendArcWithCenter] at hq
      rw [List.drop_left] at hq
      rw [arcPoints_norm _ _ _ _ q hq, hdist.1, sub_self, abs_zero]
      norm_num
    · rw [hdist.2, sub_self, abs_zero]
      norm_num
  refine ⟨partA, ?_, ?_, ?_⟩
  · intro p0 p1 p2 r facets dst out hsucc hf hr q hq
    rw [corner_dist p0 p1 p2 r facets dst out hsucc hf hr q hq,
      abs_of_pos hr]
    norm_num
  · intro t p1 p2 r center sweep dst facets harc hr hcl0 hcl hnn
    have hSub : Sub (Add p2 t) (Add p1 t) = Sub p2 p1 := by
      ext <;> simp only [Sub, Add] <;> ring
    exact (partA (Add p1 t) (Add p2 t) r center sweep dst facets harc hr
      (by rwa [hSub]) (by rwa [hSub]) (by rwa [hSub])).1
  · intro p1 p2 r center sweep dst facets harc hr hle hsc
    have hdist := arcCenter_dist_semicircle p1 p2 r center sweep harc hr hsc
    have hbound : abs (|r| / Real.cos 1e-6 - |r|) ≤ 1e-4 := by
      have hc2 : 1 - (1e-6 : ℝ) ^ 2 / 2 ≤ Real.cos 1e-6 :=
        Real.one_sub_sq_div_two_le_cos
      have hc2b : (1 : ℝ) - 5e-13 ≤ Real.cos 1e-6 := by
        have h12 : ((1e-6 : ℝ) ^ 2 / 2) = 5e-13 := by norm_num
        linarith
      have hc1 : Real.cos 1e-6 ≤ 1 := Real.cos_le_one _
      have hcpos : (0 : ℝ) < Real.cos 1e-6 := by linarith
      have habs : (0 : ℝ) ≤ |r| := abs_nonneg r
      have hge : |r| ≤ |r| / Real.cos 1e-6 := by
        rw [le_div_iff₀ hcpos]
        calc |r| * Real.cos 1e-6 ≤ |r| * 1 :=
              mul_le_mul_of_nonneg_left hc1 habs
          _ = |r| := mul_one _
      rw [abs_of_nonneg (by linarith)]
      rw [sub_le_iff_le_add, div_le_iff₀ hcpos]
      have hmul : |r| * (1 - Real.cos 1e-6) ≤ 1000 * 5e-13 :=
        mul_le_mul hle (by linarith) (by linarith) (by norm_num)
      linarith
    constructor
    · intro q hq
      simp only [appendArcWithCenter] at hq
      rw [List.drop_left] at hq
      rw [arcPoints_norm _ _ _ _ q hq, hdist.1]
      exact hbound
    · rw [hdist.2]
      exact hbound

/-- C2 witness: for the chord from the origin to `(2,0)` with radius 2 the
kernel succeeds and the explicit arc endpoint lies within `1e-4` of
distance 2 from the returned center; a concrete right-angle fillet with
radius `1/10` succeeds and all its emitted points lie within `1e-4` of
distance `1/10` from its arc center; the same chord with radius 1 is an
exact semicircle and its endpoint still lies within `1e-4` of distance 1
from the (nudged) center. -/
theorem radius_invariant_witness :
    (∃ center sweep,
      arcCenterFrom2points ⟨0, 0⟩ ⟨2, 0⟩ 2 = Except.ok (center, sweep) ∧
      abs (Norm (Sub ⟨2, 0⟩ center) - |(2 : ℝ)|) ≤ 1e-4) ∧
    (∃ out, appendSmoothedCorner [] ⟨1, 0⟩ ⟨0, 0⟩ ⟨0, 1⟩ (1 / 10) 2 =
      (out, none) ∧
      ∀ q ∈ out.drop ([] : List Vec).length,
        abs (Norm (Sub q (cornerArcCenter ⟨1, 0⟩ ⟨0, 0⟩ ⟨0, 1⟩ (1 / 10))) -
          |(1 / 10 : ℝ)|) ≤ 1e-4) ∧
    (∃ center sweep,
      arcCenterFrom2points ⟨0, 0⟩ ⟨2, 0⟩ 1 = Except.ok (center, sweep) ∧
      abs (Norm (Sub ⟨2, 0⟩ center) - |(1 : ℝ)|) ≤ 1e-4) := by
  have hpi := Real.pi_pos
  have h2pi := Real.two_le_pi
  refine ⟨?_, ?_, ?_⟩
  · have hgn : Norm (Sub (⟨2, 0⟩ : Vec) ⟨0, 0⟩) = 2 := by
      simp [Sub]
      exact Norm_axis 2 (by norm_num)
    have habs2 : |(2 : ℝ)| = 2 := abs_of_pos (by norm_num)
    have hguard : ¬(Norm (Sub (⟨2, 0⟩ : Vec) ⟨0, 0⟩) - 2 * |(2 : ℝ)| >
        arcTol) := by
      rw [hgn, habs2, arcTol]
      norm_num
    have hfrac : (2 : ℝ) / (2 * |(2 : ℝ)|) = Real.sin (Real.pi / 6) := by
      rw [habs2, Real.sin_pi_div_six]
      norm_num
    have harcsin : Real.arcsin (Norm (Sub (⟨2, 0⟩ : Vec) ⟨0, 0⟩) /
        (2 * |(2 : ℝ)|)) ≤ Real.pi / 2 - 1e-6 := by
      rw [hgn, hfrac, Real.arcsin_sin (by linarith) (by linarith)]
      have h6 : (1e-6 : ℝ) = 1 / 1000000 := by norm_num
      rw [h6]
      linarith
    rcases hcase : arcCenterFrom2points ⟨0, 0⟩ ⟨2, 0⟩ 2 with e | pair
    · exfalso
      rw [arcCenterFrom2points, if_neg hguard] at hcase
      exact absurd hcase (by simp)
    · cases pair with
      | mk center sweep =>
        exact ⟨center, sweep, rfl,
          (radius_invariant.1 ⟨0, 0⟩ ⟨2, 0⟩ 2 center sweep [] 2 hcase
            (by norm_num) (by rw [hgn]; norm_num)
            (by rw [hgn, habs2]; norm_num) harcsin).2⟩
  · have hn1 : Norm (Sub (⟨1, 0⟩ : Vec) ⟨0, 0⟩) = 1 := by
      simp [Sub]
      exact Norm_axis 1 (by norm_num)
    have hn2 : Norm (Sub (⟨0, 1⟩ : Vec) ⟨0, 0⟩) = 1 := by
      simp only [Sub, Norm]
      norm_num
    have hθval : cornerTheta ⟨1, 0⟩ ⟨0, 0⟩ ⟨0, 1⟩ = Real.pi / 2 := by
      rw [cornerTheta, cornerUnitTo, cornerUnitTo, hn1, hn2]
      rw [show Dot (Scale (1 / 1) (Sub ⟨1, 0⟩ ⟨0, 0⟩))
          (Scale (1 / 1) (Sub ⟨0, 1⟩ ⟨0, 0⟩)) = 0 by
        simp [Dot, Scale, Sub]]
      exact Real.arccos_zero
    have hg2 : ¬((1 : ℝ) / 10 - Norm (Sub (⟨1, 0⟩ : Vec) ⟨0, 0⟩) > arcTol ∨
        (1 : ℝ) / 10 - Norm (Sub (⟨0, 1⟩ : Vec) ⟨0, 0⟩) > arcTol) := by
      rw [hn1, hn2, arcTol]
      norm_num
    have hg3 : ¬(Norm (Sub (⟨1, 0⟩ : Vec) ⟨0, 0⟩) = 0 ∨
        Norm (Sub (⟨0, 1⟩ : Vec) ⟨0, 0⟩) = 0) := by
      rw [hn1, hn2]
      norm_num
    have hg4 : ¬(|cornerTheta ⟨1, 0⟩ ⟨0, 0⟩ ⟨0, 1⟩| < arcTol) := by
      rw [hθval, arcTol, abs_of_pos (by linarith)]
      intro hcon
      have h12 : (5e-1 : ℝ) = 1 / 2 := by norm_num
      rw [h12] at hcon
      linarith
    have hg5 : ¬(|cornerTheta ⟨1, 0⟩ ⟨0, 0⟩ ⟨0, 1⟩ - Real.pi| < arcTol) := by
      rw [hθval, arcTol, abs_of_nonpos (by linarith)]
      intro hcon
      have h12 : (5e-1 : ℝ) = 1 / 2 := by norm_num
      rw [h12] at hcon
      linarith
    rcases hcase : appendSmoothedCorner [] ⟨1, 0⟩ ⟨0, 0⟩ ⟨0, 1⟩ (1 / 10) 2
      with ⟨out, err⟩
    have herr : err = none := by
      rw [appendSmoothedCorner, if_neg (by norm_num), if_neg hg2, if_neg hg3,
        if_neg hg4, if_neg hg5] at hcase
      exact (congrArg Prod.snd hcase).symm
    subst herr
    exact ⟨out, rfl, fun q hq =>
      radius_invariant.2.1 ⟨1, 0⟩ ⟨0, 0⟩ ⟨0, 1⟩ (1 / 10) 2 [] out hcase
        (by norm_num) (by norm_num) q hq⟩
  · have hgn : Norm (Sub (⟨2, 0⟩ : Vec) ⟨0, 0⟩) = 2 := by
      simp [Sub]
      exact Norm_axis 2 (by norm_num)
    have hguard : ¬(Norm (Sub (⟨2, 0⟩ : Vec) ⟨0, 0⟩) - 2 * |(1 : ℝ)| >
        arcTol) := by
      rw [hgn, abs_one, arcTol]
      norm_num
    rcases hcase : arcCenterFrom2points ⟨0, 0⟩ ⟨2, 0⟩ 1 with e | pair
    · exfalso
      rw [arcCenterFrom2points, if_neg hguard] at hcase
      exact absurd hcase (by simp)
    · cases pair with
      | mk center sweep =>
        exact ⟨center, sweep, rfl,
          (radius_invariant.2.2.2 ⟨0, 0⟩ ⟨2, 0⟩ 1 center sweep [] 2 hcase
            (by norm_num) (by rw [abs_one]; norm_num)
            (by rw [hgn, abs_one]; norm_num)).2⟩

end ms2
